import Mathlib

/-!
# MutexDebugger (mongo/util/concurrency/mutexdebugger.h)

A shallow embedding of the lock-order verifier `mongo::MutexDebugger`.

Modelling conventions.

* `mid` (`const char *`) is an address, a natural number; `0` is the null pointer.
  The maps of the class are keyed by `mid`, hence compared by address.  The text a
  pointer refers to is given by a memory function `cstr : mid → String`, which is only
  consulted by the comparison `a == m` of `entering`.
* `std::map<mid, T>` is an association list with strictly increasing keys; iteration
  visits the entries in list order.  `std::set<mid>` is a strictly increasing list.
* `boost::thread_specific_ptr<Preceeding> us` is a finite map from thread identifiers to
  tables; a thread without an entry is a thread whose pointer is null.  Every hook takes
  the calling thread as an explicit argument.
* An `int` counter is an integer in the range of a 32-bit `int`; the increment
  `preceeding[m]++` and the decrement `preceeding[m]--` wrap around in two's complement
  (`wrapInt`, an explicit reduction modulo `2^32`), so `INT_MAX + 1` is `INT_MIN`.
* The embedded object is a constructed one: `this != 0` and `magic == 0x12345678` hold
  (the constructor is the only writer of `magic`), so `verify( magic == 0x12345678 )`
  passes.  The guard `boost::mutex &x` has no sequential content; each hook is one atomic
  step of the model.
* A failing `verify` throws after the mutations that precede it, so every hook returns
  an outcome together with the state it leaves behind.  The text of the diagnostics is not
  modelled beyond the conflicting identity.
-/

namespace mongo

/-- The type `mid` of the source, a `const char *`: an address, `0` being null. -/
abbrev mid := Nat

/-! ## Machine integers -/

/-- The least `int`, `INT_MIN`. -/
def intMin : Int := -2147483648

/-- The greatest `int`, `INT_MAX`. -/
def intMax : Int := 2147483647

/-- The value of an integer as a 32-bit `int` in two's complement. -/
def wrapInt (x : Int) : Int := (x + 2147483648) % 4294967296 - 2147483648

/-- The values of the type `int`. -/
def IsInt (x : Int) : Prop := intMin ≤ x ∧ x ≤ intMax

instance (x : Int) : Decidable (IsInt x) := by
  unfold IsInt; infer_instance

/-! ## Ordered containers -/

namespace StdMap

/-- Lookup of a key, as `std::map::find`. -/
def find? {β : Type} : List (Nat × β) → Nat → Option β
  | [], _ => none
  | (k, v) :: rest, j => if j = k then some v else find? rest j

/-- Assignment `map[k] = v`: replaces the value of an existing key, otherwise inserts the
entry at its place in key order. -/
def assign {β : Type} : List (Nat × β) → Nat → β → List (Nat × β)
  | [], j, w => [(j, w)]
  | (k, v) :: rest, j, w =>
    if j < k then (j, w) :: (k, v) :: rest
    else if j = k then (j, w) :: rest
    else (k, v) :: assign rest j w

/-- The value that `map[k]` refers to: a missing key reads as the default `dflt`. -/
def index {β : Type} (dflt : β) (l : List (Nat × β)) (j : Nat) : β :=
  (find? l j).getD dflt

/-- The map after evaluating `map[k]`: a missing key is inserted with the default. -/
def touch {β : Type} (dflt : β) (l : List (Nat × β)) (j : Nat) : List (Nat × β) :=
  match find? l j with
  | some _ => l
  | none => assign l j dflt

/-- Insertion into a `std::set<mid>`. -/
def setInsert : List Nat → Nat → List Nat
  | [], j => [j]
  | k :: rest, j =>
    if j < k then j :: k :: rest
    else if j = k then k :: rest
    else k :: setInsert rest j

/-- Membership count `set.count(k)`, which is `0` or `1`. -/
def count (s : List Nat) (j : Nat) : Nat := if j ∈ s then 1 else 0

/-- Strictly increasing keys: the representation invariant of a `std::map`. -/
def Ordered {β : Type} (l : List (Nat × β)) : Prop :=
  (l.map Prod.fst).Pairwise (· < ·)

end StdMap

open StdMap

/-! ## State -/

/-- The per-thread table `Preceeding`, a `std::map<mid,int>` of hold counts.  The counts
are values of `int`: that they lie in its range is part of `TablesOrdered`, and the hooks
compute them with `wrapInt`. -/
abbrev Preceeding := List (mid × Int)

/-- The data members of `MutexDebugger`.  `b_c_str` is the address returned by
`b.c_str()`, the buffer of the string member `b`. -/
structure MutexDebugger where
  maxNest : List (mid × Int)
  us : List (Nat × Preceeding)
  followers : List (mid × List mid)
  a : String
  b : String
  b_c_str : mid
  deriving DecidableEq, Repr

/-- How a hook call ends. -/
inductive Outcome where
  /-- Normal return. -/
  | ok
  /-- The `verify(false)` of the watched pair `a`, `b` in `entering`. -/
  | watchedPair
  /-- The `verify( 0 )` that ends `entering` when `failed` is set; `bad` is the identity
  reported as already locked. -/
  | orderViolation (bad : mid)
  /-- The `verify( preceeding[m] >= 0 )` of `leaving`, with the count reached. -/
  | unbalanced (count : Int)
  /-- The dereference `*us.get()` of `leaving` in a thread that has no table. -/
  | nullDeref
  deriving DecidableEq, Repr

/-- Outcome of a hook and the state it leaves. -/
structure Result where
  outcome : Outcome
  state : MutexDebugger
  deriving DecidableEq, Repr

/-- The object after construction, with the public members `a`, `b` set as given. -/
def MutexDebugger.init (a b : String) (bp : mid) : MutexDebugger :=
  { maxNest := [], us := [], followers := [], a := a, b := b, b_c_str := bp }

/-- The table of thread `t`, empty when the thread has none. -/
def MutexDebugger.table (d : MutexDebugger) (t : Nat) : Preceeding :=
  (find? d.us t).getD []

/-- Hold count of thread `t` for identity `m`; absent reads as `0`. -/
def MutexDebugger.held (d : MutexDebugger) (t : Nat) (m : mid) : Int :=
  index 0 (d.table t) m

/-- The hold count of thread `t` for `m` after `preceeding[m]++`. -/
def MutexDebugger.bumped (d : MutexDebugger) (t : Nat) (m : mid) : Int :=
  wrapInt (d.held t m + 1)

/-- The hold count of thread `t` for `m` after `preceeding[m]--`. -/
def MutexDebugger.dropped (d : MutexDebugger) (t : Nat) (m : mid) : Int :=
  wrapInt (d.held t m - 1)

/-- Edge `x → y` of a `followers` map: `y` is in `followers[x]`. -/
def hasEdge (f : List (mid × List mid)) (x y : mid) : Prop :=
  y ∈ index [] f x

instance (f : List (mid × List mid)) (x y : mid) : Decidable (hasEdge f x y) := by
  unfold hasEdge; infer_instance

/-- Edge `x → y` of the graph of the object. -/
def MutexDebugger.edge (d : MutexDebugger) (x y : mid) : Prop :=
  hasEdge d.followers x y

instance (d : MutexDebugger) (x y : mid) : Decidable (d.edge x y) := by
  unfold MutexDebugger.edge; infer_instance

/-- Every per-thread table is a well-formed `std::map<mid,int>`: its keys increase
strictly and its counts are values of the type `int`. -/
def MutexDebugger.TablesOrdered (d : MutexDebugger) : Prop :=
  ∀ e ∈ d.us, Ordered e.2 ∧ ∀ x ∈ e.2, IsInt x.2

/-- The condition under which `entering` stops at the watched pair: `a == m` and
`preceeding[b.c_str()]` is non-zero. -/
def trapFires (cstr : mid → String) (d : MutexDebugger) (t : Nat) (m : mid) : Prop :=
  d.a = cstr m ∧ d.held t d.b_c_str ≠ 0

instance (cstr : mid → String) (d : MutexDebugger) (t : Nat) (m : mid) :
    Decidable (trapFires cstr d t m) := by
  unfold trapFires; infer_instance

/-! ## The hooks -/

/-- The loop of `entering` over the table of the calling thread (source lines 106-129).
Returns the graph and the identity `bad` at which the loop broke, if it did. -/
def scan (m : mid) : Preceeding → List (mid × List mid) → List (mid × List mid) × Option mid
  | [], f => (f, none)
  | (k, c) :: rest, f =>
    if m ≠ k ∧ c > 0 then
      let f1 := assign f k (setInsert (index [] f k) m)
      if count (index [] f1 m) k ≠ 0 then (f1, some k)
      else scan m rest f1
    else scan m rest f

/-- The hook `entering(mid m)` called by thread `t`. -/
def entering (cstr : mid → String) (d : MutexDebugger) (t : Nat) (m : mid) : Result :=
  if m = 0 then ⟨.ok, d⟩
  else
    let p0 : Preceeding := d.table t
    let p1 : Preceeding := if d.a = cstr m then touch 0 p0 d.b_c_str else p0
    if d.a = cstr m ∧ index 0 p0 d.b_c_str ≠ 0 then
      ⟨.watchedPair, { d with us := assign d.us t p1 }⟩
    else
      let p2 : Preceeding := assign p1 m (wrapInt (index 0 p1 m + 1))
      if index 0 p2 m > 1 then
        let mn := touch 0 d.maxNest m
        let mn2 := if index 0 p2 m > index 0 mn m then assign mn m (index 0 p2 m) else mn
        ⟨.ok, { d with us := assign d.us t p2, maxNest := mn2 }⟩
      else
        let f0 := touch [] d.followers m
        match scan m p2 f0 with
        | (f1, some bad) => ⟨.orderViolation bad, { d with us := assign d.us t p2, followers := f1 }⟩
        | (f1, none) => ⟨.ok, { d with us := assign d.us t p2, followers := f1 }⟩

/-- The hook `leaving(mid m)` called by thread `t`. -/
def leaving (d : MutexDebugger) (t : Nat) (m : mid) : Result :=
  if m = 0 then ⟨.ok, d⟩
  else
    match find? d.us t with
    | none => ⟨.nullDeref, d⟩
    | some p =>
      let p1 : Preceeding := assign p m (wrapInt (index 0 p m - 1))
      let d1 : MutexDebugger := { d with us := assign d.us t p1 }
      if index 0 p1 m < 0 then ⟨.unbalanced (index 0 p1 m), d1⟩ else ⟨.ok, d1⟩

/-- The table of the calling thread after the test of the watched pair in `entering`
(source lines 85-91): the lookup `preceeding[b.c_str()]` may have inserted a zero. -/
def tableChecked (cstr : mid → String) (d : MutexDebugger) (t : Nat) (m : mid) : Preceeding :=
  if d.a = cstr m then touch 0 (d.table t) d.b_c_str else d.table t

/-- The table of the calling thread after `preceeding[m]++` in `entering`. -/
def tableEntered (cstr : mid → String) (d : MutexDebugger) (t : Nat) (m : mid) : Preceeding :=
  assign (tableChecked cstr d t m) m (wrapInt (index 0 (tableChecked cstr d t m) m + 1))

/-- The outcome of a first acquisition, read off the result of the loop. -/
def scanOutcome : Option mid → Outcome
  | some bad => .orderViolation bad
  | none => .ok

/-! ## Call sequences -/

/-- One hook call by one thread. -/
inductive Call where
  | acquire (t : Nat) (m : mid)
  | release (t : Nat) (m : mid)
  deriving DecidableEq, Repr

/-- Performs one call. -/
def step (cstr : mid → String) (d : MutexDebugger) : Call → Result
  | .acquire t m => entering cstr d t m
  | .release t m => leaving d t m

/-- The state after a sequence of calls; a failed call leaves its state behind and the
sequence goes on from it. -/
def run (cstr : mid → String) (d : MutexDebugger) : List Call → MutexDebugger
  | [] => d
  | c :: cs => run cstr (step cstr d c).state cs

/-- The outcomes of the calls of a sequence, in order. -/
def outcomes (cstr : mid → String) (d : MutexDebugger) : List Call → List Outcome
  | [] => []
  | c :: cs => (step cstr d c).outcome :: outcomes cstr (step cstr d c).state cs

/-- The states visited by a sequence of calls, the starting state first. -/
def trace (cstr : mid → String) (d : MutexDebugger) : List Call → List MutexDebugger
  | [] => [d]
  | c :: cs => d :: trace cstr (step cstr d c).state cs

/-- The sequences in which only `A` and `B` are entered and left and `A` is never entered
by a thread that holds `B` at that moment. -/
def onlyAThenB (cstr : mid → String) (A B : mid) : MutexDebugger → List Call → Bool
  | _, [] => true
  | d, .acquire t m :: cs =>
    decide (m = A ∨ m = B) && decide (m = A → d.held t B ≤ 0)
      && onlyAThenB cstr A B (entering cstr d t m).state cs
  | d, .release t m :: cs =>
    decide (m = A ∨ m = B) && onlyAThenB cstr A B (leaving d t m).state cs

/-- The invariant of the sequences that only nest `A` then `B`: tables are well formed,
only `A` and `B` are held, and `B → A` is not an edge. -/
def NestInv (A B : mid) (d : MutexDebugger) : Prop :=
  d.TablesOrdered ∧ (∀ t k, 0 < d.held t k → k = A ∨ k = B) ∧ ¬ d.edge B A

/-- Every entry of every per-thread table is non-negative. -/
def MutexDebugger.EntriesNonneg (d : MutexDebugger) : Prop :=
  ∀ e ∈ d.us, ∀ x ∈ e.2, 0 ≤ x.2

/-- The loop of `currentlyLocked` over the table (source lines 69-72), `q` being the text
written to the stream so far. -/
def lockedLoop (cstr : mid → String) : Preceeding → String → String
  | [], q => q
  | (k, c) :: rest, q =>
    if c > 0 then lockedLoop cstr rest (q ++ "  " ++ cstr k ++ " " ++ toString c ++ "\n")
    else lockedLoop cstr rest q

/-- The member function `currentlyLocked()` called by thread `t`. -/
def currentlyLocked (cstr : mid → String) (d : MutexDebugger) (t : Nat) : String :=
  match find? d.us t with
  | none => ""
  | some p => lockedLoop cstr p ""

/-- The line of the listing for identity `k` held `c` times. -/
def lockedLine (cstr : mid → String) (k : mid) (c : Int) : String :=
  "  " ++ (cstr k ++ (" " ++ (toString c ++ "\n")))

/-- The listing as the specification words it: the identities of the calling thread with
a positive hold count, each with its count. -/
def lockedEntries (d : MutexDebugger) (t : Nat) : List (mid × Int) :=
  (d.table t).filter (fun e => decide (0 < e.2))

/-- The graph has no edge together with its opposite (in particular no self-edge). -/
def MutexDebugger.Antisymmetric (d : MutexDebugger) : Prop :=
  ∀ x y, d.edge x y → ¬ d.edge y x

/-- The two tables of the object that all threads share. -/
inductive SharedTable where
  | followers
  | maxNest
  deriving DecidableEq, Repr

/-- One access of a hook to a shared table: which table, whether the access can change it
(an assignment, an `insert`, or an `operator[]` that may insert), and whether it lies
inside the block that holds `boost::mutex::scoped_lock lk(x)` (source lines 103-130). -/
structure Access where
  table : SharedTable
  mutates : Bool
  guarded : Bool
  deriving DecidableEq, Repr

/-- The accesses to `followers` made by the loop of `entering`, in order: for every entry
that passes the test of line 107, the `insert` of line 108 and the `count` of line 109. -/
def scanAccesses (m : mid) : Preceeding → List (mid × List mid) → List Access
  | [], _ => []
  | (k, c) :: rest, f =>
    if m ≠ k ∧ c > 0 then
      let f1 := assign f k (setInsert (index [] f k) m)
      ⟨.followers, true, true⟩ :: ⟨.followers, false, true⟩ ::
        (if count (index [] f1 m) k ≠ 0 then [] else scanAccesses m rest f1)
    else scanAccesses m rest f

/-- The accesses to the shared tables made by `entering(mid m)` called by thread `t`, in
order, following the same path as `entering`: the comparison and the assignment of lines
96-97 come before the block of the lock, the accesses of lines 105-109 lie inside it. -/
def enteringAccesses (cstr : mid → String) (d : MutexDebugger) (t : Nat) (m : mid) :
    List Access :=
  if m = 0 then []
  else
    let p0 : Preceeding := d.table t
    let p1 : Preceeding := if d.a = cstr m then touch 0 p0 d.b_c_str else p0
    if d.a = cstr m ∧ index 0 p0 d.b_c_str ≠ 0 then []
    else
      let p2 : Preceeding := assign p1 m (wrapInt (index 0 p1 m + 1))
      if index 0 p2 m > 1 then
        let mn := touch 0 d.maxNest m
        ⟨.maxNest, true, false⟩ ::
          (if index 0 p2 m > index 0 mn m then [⟨.maxNest, true, false⟩] else [])
      else
        ⟨.followers, true, true⟩ :: scanAccesses m p2 (touch [] d.followers m)

/-- The sequences in which `entering` is never called for an identity that the caller
holds `INT_MAX` times at that moment, so that no increment wraps. -/
def neverAtIntMax (cstr : mid → String) : MutexDebugger → List Call → Bool
  | _, [] => true
  | d, .acquire t m :: cs =>
    decide (d.held t m < intMax) && neverAtIntMax cstr (entering cstr d t m).state cs
  | d, .release t m :: cs => neverAtIntMax cstr (leaving d t m).state cs

/-- The invariant that ties hold counts to `maxNest` along calls that return normally:
every hold count for `j` is at most the larger of `1` and `maxNest[j]`, and a negative
hold count, which only a wrapped increment produces, comes with `maxNest[j]` at `INT_MAX`. -/
def HighWater (j : mid) (d : MutexDebugger) : Prop :=
  ∀ t, d.held t j ≤ max 1 (index 0 d.maxNest j)
    ∧ (d.held t j < 0 → intMax ≤ index 0 d.maxNest j)

/-! ## Concrete data used to evaluate the hooks -/

/-- A memory in which the addresses `10`, `20`, `30` hold the names `A`, `B`, `C`, the
addresses `100`, `200` the names `M1`, `M2`, and `300` a second copy of the text `M2`. -/
def sampleMem : mid → String := fun p =>
  if p = 10 then "A" else if p = 20 then "B" else if p = 30 then "C"
  else if p = 100 then "M1" else if p = 200 then "M2" else if p = 300 then "M2" else ""

/-- A freshly constructed object: no watched pair, `b.c_str()` at address `999`. -/
def fresh : MutexDebugger := MutexDebugger.init "" "" 999

/-- Three threads nest `A` then `B`, `B` then `C`, and `C` then `A`. -/
def threeCycleCalls : List Call :=
  [.acquire 1 10, .acquire 1 20, .release 1 20, .release 1 10,
   .acquire 2 20, .acquire 2 30, .release 2 30, .release 2 20,
   .acquire 3 30, .acquire 3 10]

/-- An object whose watched pair is set to the names of `M1` and `M2`; the string member
`b` keeps its text in its own buffer, at address `300`. -/
def watchedM1M2 : MutexDebugger := MutexDebugger.init "M1" "M2" 300

/-- An object whose watched pair is `A`, `B`, where the mutex `B` is identified by the
buffer of the member `b` itself (address `20`); thread `1` has locked `A` and then `B`. -/
def holdsAB : MutexDebugger :=
  run sampleMem (MutexDebugger.init "A" "B" 20) [.acquire 1 10, .acquire 1 20]

/-- Thread `1` has entered `A` once. -/
def enteredOnce : MutexDebugger :=
  run sampleMem fresh [.acquire 1 10]

/-- Thread `1` has nested `A` then `B` and left both; thread `2` has entered `B`. -/
def reversedNesting : MutexDebugger :=
  run sampleMem fresh
    [.acquire 1 10, .acquire 1 20, .release 1 20, .release 1 10, .acquire 2 20]

/-- Thread `1` has locked `A` and then `B`, on an object without a watched pair. -/
def nestedAB : MutexDebugger :=
  run sampleMem fresh [.acquire 1 10, .acquire 1 20]

/-- Thread `1` holds `B` once and has locked `A` again and again, `INT_MAX` times in
all. -/
def deepNested : MutexDebugger :=
  run sampleMem nestedAB (List.replicate 2147483646 (.acquire 1 10))

/-- Thread `1` has locked `A` `2^31` times in a row on a fresh object. -/
def wrappedNest : MutexDebugger :=
  run sampleMem fresh (List.replicate 2147483648 (.acquire 1 10))

/-! ## Facts about machine integers -/

theorem wrapInt_isInt (x : Int) : IsInt (wrapInt x) := by
  unfold IsInt wrapInt intMin intMax
  omega

theorem wrapInt_of_isInt (x : Int) (h : IsInt x) : wrapInt x = x := by
  unfold IsInt intMin intMax at h
  unfold wrapInt
  omega

theorem wrapInt_add (x y : Int) : wrapInt (wrapInt x + y) = wrapInt (x + y) := by
  unfold wrapInt
  omega

theorem isInt_zero : IsInt 0 := by
  unfold IsInt intMin intMax
  omega

/-! ## Facts about the ordered containers -/

namespace StdMap

theorem find?_assign {β : Type} (l : List (Nat × β)) (k : Nat) (v : β) (j : Nat) :
    find? (assign l k v) j = if j = k then some v else find? l j := by
  induction l with
  | nil => simp [assign, find?]
  | cons e rest ih =>
    obtain ⟨k0, v0⟩ := e
    by_cases h1 : k < k0
    · simp [assign, find?, h1]
    · by_cases h2 : k = k0
      · subst h2
        by_cases h3 : j = k <;> simp [assign, find?, h3]
      · by_cases h3 : j = k0
        · subst h3
          have : ¬ j = k := fun h => h2 h.symm
          simp [assign, find?, h1, h2, this]
        · simp [assign, find?, h1, h2, h3, ih]

theorem index_assign {β : Type} (dflt : β) (l : List (Nat × β)) (k : Nat) (v : β) (j : Nat) :
    index dflt (assign l k v) j = if j = k then v else index dflt l j := by
  unfold index
  rw [find?_assign]
  by_cases h : j = k <;> simp [h]

theorem index_assign_self {β : Type} (dflt : β) (l : List (Nat × β)) (k : Nat) (v : β) :
    index dflt (assign l k v) k = v := by
  simp [index_assign]

theorem index_assign_ne {β : Type} (dflt : β) (l : List (Nat × β)) (k : Nat) (v : β) (j : Nat)
    (h : j ≠ k) : index dflt (assign l k v) j = index dflt l j := by
  simp [index_assign, h]

theorem find?_touch {β : Type} (dflt : β) (l : List (Nat × β)) (k j : Nat) :
    find? (touch dflt l k) j = if j = k then some (index dflt l k) else find? l j := by
  unfold touch index
  cases h : find? l k with
  | some v =>
    by_cases hj : j = k
    · subst hj; simp [h]
    · simp [hj]
  | none =>
    simp only [find?_assign]
    by_cases hj : j = k <;> simp [hj]

theorem index_touch {β : Type} (dflt : β) (l : List (Nat × β)) (k j : Nat) :
    index dflt (touch dflt l k) j = index dflt l j := by
  by_cases h : j = k
  · subst h
    simp [index, find?_touch]
  · simp [index, find?_touch, h]

theorem mem_of_find? {β : Type} (l : List (Nat × β)) (k : Nat) (v : β)
    (h : find? l k = some v) : (k, v) ∈ l := by
  induction l with
  | nil => simp [find?] at h
  | cons e rest ih =>
    obtain ⟨k0, v0⟩ := e
    by_cases hk : k = k0
    · subst hk
      simp [find?] at h
      simp [h]
    · simp [find?, hk] at h
      exact List.mem_cons_of_mem _ (ih h)

theorem find?_of_mem {β : Type} (l : List (Nat × β)) (hl : Ordered l) (k : Nat) (v : β)
    (h : (k, v) ∈ l) : find? l k = some v := by
  induction l with
  | nil => simp at h
  | cons e rest ih =>
    obtain ⟨k0, v0⟩ := e
    simp only [Ordered, List.map_cons, List.pairwise_cons] at hl
    rcases List.mem_cons.mp h with h1 | h1
    · cases h1
      simp [find?]
    · have hlt : k0 < k := hl.1 k (List.mem_map_of_mem Prod.fst h1)
      have hne : ¬ k = k0 := by omega
      simp only [find?, hne, if_false]
      exact ih hl.2 h1

theorem mem_assign {β : Type} (l : List (Nat × β)) (k : Nat) (v : β) (e : Nat × β)
    (h : e ∈ assign l k v) : e = (k, v) ∨ e ∈ l := by
  induction l with
  | nil => simp [assign] at h; exact Or.inl h
  | cons e0 rest ih =>
    obtain ⟨k0, v0⟩ := e0
    by_cases h1 : k < k0
    · simp only [assign, h1, if_true, List.mem_cons] at h
      rcases h with h | h | h
      · exact Or.inl h
      · exact Or.inr (by simp [h])
      · exact Or.inr (List.mem_cons_of_mem _ h)
    · by_cases h2 : k = k0
      · subst h2
        simp only [assign, h1, if_true, if_false, List.mem_cons] at h
        rcases h with h | h
        · exact Or.inl h
        · exact Or.inr (List.mem_cons_of_mem _ h)
      · simp only [assign, h1, h2, if_false, List.mem_cons] at h
        rcases h with h | h
        · exact Or.inr (by simp [h])
        · rcases ih h with h | h
          · exact Or.inl h
          · exact Or.inr (List.mem_cons_of_mem _ h)

theorem ordered_assign {β : Type} (l : List (Nat × β)) (hl : Ordered l) (k : Nat) (v : β) :
    Ordered (assign l k v) := by
  induction l with
  | nil => simp [assign, Ordered]
  | cons e0 rest ih =>
    obtain ⟨k0, v0⟩ := e0
    have hl0 := hl
    simp only [Ordered, List.map_cons, List.pairwise_cons] at hl
    by_cases h1 : k < k0
    · simp only [assign, h1, if_true, Ordered, List.map_cons, List.pairwise_cons]
      refine ⟨?_, hl⟩
      intro x hx
      rcases List.mem_cons.mp hx with hx | hx
      · omega
      · have := hl.1 x hx
        omega
    · by_cases h2 : k = k0
      · subst h2
        simp only [assign, h1, if_true, if_false, Ordered, List.map_cons, List.pairwise_cons]
        exact hl
      · simp only [assign, h1, h2, if_false, Ordered, List.map_cons, List.pairwise_cons]
        refine ⟨?_, ih hl.2⟩
        intro x hx
        obtain ⟨e, he, rfl⟩ := List.mem_map.mp hx
        rcases mem_assign rest k v e he with h | h
        · subst h
          simp only
          omega
        · exact hl.1 _ (List.mem_map_of_mem Prod.fst h)

theorem ordered_touch {β : Type} (dflt : β) (l : List (Nat × β)) (hl : Ordered l) (k : Nat) :
    Ordered (touch dflt l k) := by
  unfold touch
  cases find? l k with
  | some v => exact hl
  | none => exact ordered_assign l hl k dflt

theorem mem_setInsert (s : List Nat) (j x : Nat) :
    x ∈ setInsert s j ↔ x = j ∨ x ∈ s := by
  induction s with
  | nil => simp [setInsert]
  | cons k rest ih =>
    by_cases h1 : j < k
    · simp [setInsert, h1]
    · by_cases h2 : j = k
      · subst h2
        simp [setInsert]
      · simp only [setInsert, h1, h2, if_false, List.mem_cons, ih]
        tauto

end StdMap

/-! ## Facts about the graph and the loop of `entering` -/

theorem hasEdge_assign (f : List (mid × List mid)) (k m x y : mid) :
    hasEdge (assign f k (setInsert (index [] f k) m)) x y
      ↔ hasEdge f x y ∨ (x = k ∧ y = m) := by
  unfold hasEdge
  rw [index_assign]
  by_cases h : x = k
  · subst h
    simp only [if_true, mem_setInsert]
    tauto
  · simp [h]

theorem hasEdge_touch (f : List (mid × List mid)) (m x y : mid) :
    hasEdge (touch [] f m) x y ↔ hasEdge f x y := by
  unfold hasEdge
  rw [index_touch]

theorem count_ne_zero (s : List mid) (k : mid) : count s k ≠ 0 ↔ k ∈ s := by
  unfold count
  by_cases h : k ∈ s <;> simp [h]

/-- The loop never removes an edge. -/
theorem scan_mono (m : mid) (p : Preceeding) (f : List (mid × List mid)) (x y : mid)
    (h : hasEdge f x y) : hasEdge (scan m p f).1 x y := by
  induction p generalizing f with
  | nil => simpa [scan] using h
  | cons e rest ih =>
    obtain ⟨k, c⟩ := e
    unfold scan
    split
    · simp only
      split
      · exact (hasEdge_assign f k m x y).mpr (Or.inl h)
      · exact ih _ ((hasEdge_assign f k m x y).mpr (Or.inl h))
    · exact ih _ h

/-- Every edge the loop adds leads from an identity held in the table to `m`. -/
theorem scan_new (m : mid) (p : Preceeding) (f : List (mid × List mid)) (x y : mid)
    (h : hasEdge (scan m p f).1 x y) :
    hasEdge f x y ∨ (y = m ∧ x ≠ m ∧ ∃ c, (x, c) ∈ p ∧ 0 < c) := by
  induction p generalizing f with
  | nil => left; simpa [scan] using h
  | cons e rest ih =>
    obtain ⟨k, c⟩ := e
    unfold scan at h
    split at h
    · rename_i hk
      simp only at h
      have key :
          hasEdge (assign f k (setInsert (index [] f k) m)) x y →
          hasEdge f x y ∨ (y = m ∧ x ≠ m ∧ ∃ c0, (x, c0) ∈ (k, c) :: rest ∧ 0 < c0) := by
        intro hg
        rcases (hasEdge_assign f k m x y).mp hg with h1 | ⟨h1, h2⟩
        · exact Or.inl h1
        · subst h1
          exact Or.inr ⟨h2, fun hx => hk.1 hx.symm, c, by simp, hk.2⟩
      split at h
      · exact key h
      · rcases ih _ h with h1 | ⟨h1, h2, c0, h3, h4⟩
        · exact key h1
        · exact Or.inr ⟨h1, h2, c0, List.mem_cons_of_mem _ h3, h4⟩
    · rcases ih _ h with h1 | ⟨h1, h2, c0, h3, h4⟩
      · exact Or.inl h1
      · exact Or.inr ⟨h1, h2, c0, List.mem_cons_of_mem _ h3, h4⟩

/-- The set `followers[m]` is not changed by the loop. -/
theorem scan_row (m : mid) (p : Preceeding) (f : List (mid × List mid)) (y : mid) :
    hasEdge (scan m p f).1 m y ↔ hasEdge f m y := by
  constructor
  · intro h
    rcases scan_new m p f m y h with h1 | ⟨_, h2, _⟩
    · exact h1
    · exact absurd rfl h2
  · exact scan_mono m p f m y

/-- When the loop breaks at `bad`, that identity is held in the table and `m → bad` was
already an edge. -/
theorem scan_some (m : mid) (p : Preceeding) (f : List (mid × List mid)) (bad : mid)
    (h : (scan m p f).2 = some bad) :
    bad ≠ m ∧ hasEdge f m bad ∧ hasEdge (scan m p f).1 bad m ∧ ∃ c, (bad, c) ∈ p ∧ 0 < c := by
  induction p generalizing f with
  | nil => simp [scan] at h
  | cons e rest ih =>
    obtain ⟨k, c⟩ := e
    unfold scan at h ⊢
    split at h
    · rename_i hk
      simp only at h ⊢
      split at h
      · rename_i hc
        simp only [Option.some.injEq] at h
        subst h
        rw [if_pos hk, if_pos hc]
        rw [count_ne_zero] at hc
        have hc2 : hasEdge (assign f k (setInsert (index [] f k) m)) m k := hc
        refine ⟨fun hx => hk.1 hx.symm, ?_, ?_, c, by simp, hk.2⟩
        · rcases (hasEdge_assign f k m m k).mp hc2 with h1 | ⟨h1, _⟩
          · exact h1
          · exact absurd h1 hk.1
        · exact (hasEdge_assign f k m k m).mpr (Or.inr ⟨rfl, rfl⟩)
      · rename_i hc
        rw [if_pos hk, if_neg hc]
        obtain ⟨h1, h2, h3, c0, h4, h5⟩ := ih _ h
        refine ⟨h1, ?_, h3, c0, List.mem_cons_of_mem _ h4, h5⟩
        rcases (hasEdge_assign f k m m bad).mp h2 with h6 | ⟨h6, _⟩
        · exact h6
        · exact absurd h6 hk.1
    · rename_i hk
      rw [if_neg hk]
      obtain ⟨h1, h2, h3, c0, h4, h5⟩ := ih _ h
      exact ⟨h1, h2, h3, c0, List.mem_cons_of_mem _ h4, h5⟩

/-- When the loop runs to its end, every identity held in the table has its edge to `m`
and none of them was a follower of `m`. -/
theorem scan_none (m : mid) (p : Preceeding) (f : List (mid × List mid))
    (h : (scan m p f).2 = none) (k : mid) (c : Int) (hk : (k, c) ∈ p) (hne : k ≠ m)
    (hc : 0 < c) : ¬ hasEdge f m k ∧ hasEdge (scan m p f).1 k m := by
  induction p generalizing f with
  | nil => simp at hk
  | cons e rest ih =>
    obtain ⟨k0, c0⟩ := e
    unfold scan at h ⊢
    split at h
    · rename_i hk0
      simp only at h ⊢
      rw [if_pos hk0]
      split at h
      · simp at h
      · rename_i hc0
        rw [if_neg hc0]
        rw [count_ne_zero] at hc0
        have hc1 : ¬ hasEdge (assign f k0 (setInsert (index [] f k0) m)) m k0 := hc0
        rcases List.mem_cons.mp hk with h1 | h1
        · cases h1
          refine ⟨fun hx => hc1 ((hasEdge_assign f k m m k).mpr (Or.inl hx)), ?_⟩
          exact scan_mono m rest _ k m ((hasEdge_assign f k m k m).mpr (Or.inr ⟨rfl, rfl⟩))
        · obtain ⟨h2, h3⟩ := ih _ h h1
          exact ⟨fun hx => h2 ((hasEdge_assign f k0 m m k).mpr (Or.inl hx)), h3⟩
    · rename_i hk0
      rw [if_neg hk0]
      rcases List.mem_cons.mp hk with h1 | h1
      · cases h1
        exact absurd ⟨fun hx => hne hx.symm, hc⟩ hk0
      · exact ih _ h h1

/-! ## The three ways through `entering` -/

theorem table_with_us (d : MutexDebugger) (t : Nat) (p : Preceeding) (t2 : Nat)
    (mn : List (mid × Int)) (f : List (mid × List mid)) :
    MutexDebugger.table { d with us := assign d.us t p, maxNest := mn, followers := f } t2
      = if t2 = t then p else d.table t2 := by
  unfold MutexDebugger.table
  simp only [find?_assign]
  by_cases h : t2 = t <;> simp [h]

theorem index_tableChecked (cstr : mid → String) (d : MutexDebugger) (t : Nat) (m j : mid) :
    index 0 (tableChecked cstr d t m) j = d.held t j := by
  unfold tableChecked MutexDebugger.held
  split
  · exact index_touch 0 _ _ _
  · rfl

theorem index_tableEntered (cstr : mid → String) (d : MutexDebugger) (t : Nat) (m j : mid) :
    index 0 (tableEntered cstr d t m) j = if j = m then d.bumped t m else d.held t j := by
  unfold tableEntered MutexDebugger.bumped
  rw [index_assign, index_tableChecked, index_tableChecked]

theorem entering_null (cstr : mid → String) (d : MutexDebugger) (t : Nat) :
    entering cstr d t 0 = ⟨.ok, d⟩ := by
  simp [entering]

theorem entering_trap (cstr : mid → String) (d : MutexDebugger) (t : Nat) (m : mid)
    (hm : m ≠ 0) (h : trapFires cstr d t m) :
    entering cstr d t m
      = ⟨.watchedPair, { d with us := assign d.us t (tableChecked cstr d t m) }⟩ := by
  unfold trapFires MutexDebugger.held at h
  unfold entering tableChecked
  simp only [if_neg hm]
  rw [if_pos h]

theorem entering_recursive (cstr : mid → String) (d : MutexDebugger) (t : Nat) (m : mid)
    (hm : m ≠ 0) (h : ¬ trapFires cstr d t m) (hc : 1 < d.bumped t m) :
    entering cstr d t m
      = ⟨.ok, { d with
          us := assign d.us t (tableEntered cstr d t m),
          maxNest :=
            if d.bumped t m > index 0 d.maxNest m
            then assign (touch 0 d.maxNest m) m (d.bumped t m)
            else touch 0 d.maxNest m }⟩ := by
  have h1 : index 0 (tableEntered cstr d t m) m = d.bumped t m := by
    rw [index_tableEntered, if_pos rfl]
  have h2 : index 0 (tableEntered cstr d t m) m > 1 := by rw [h1]; exact hc
  unfold trapFires MutexDebugger.held at h
  unfold tableEntered tableChecked at h1 h2
  unfold entering tableEntered tableChecked
  simp only [if_neg hm]
  rw [if_neg h, if_pos h2, h1, index_touch]

theorem entering_first (cstr : mid → String) (d : MutexDebugger) (t : Nat) (m : mid)
    (hm : m ≠ 0) (h : ¬ trapFires cstr d t m) (hc : d.bumped t m ≤ 1) :
    entering cstr d t m
      = match scan m (tableEntered cstr d t m) (touch [] d.followers m) with
        | (f1, some bad) =>
          ⟨.orderViolation bad,
            { d with us := assign d.us t (tableEntered cstr d t m), followers := f1 }⟩
        | (f1, none) =>
          ⟨.ok, { d with us := assign d.us t (tableEntered cstr d t m), followers := f1 }⟩ := by
  have h1 : index 0 (tableEntered cstr d t m) m = d.bumped t m := by
    rw [index_tableEntered, if_pos rfl]
  have h2 : ¬ index 0 (tableEntered cstr d t m) m > 1 := by rw [h1]; exact not_lt.mpr hc
  unfold trapFires MutexDebugger.held at h
  unfold tableEntered tableChecked at h2
  unfold entering tableEntered tableChecked
  simp only [if_neg hm]
  rw [if_neg h, if_neg h2]

theorem entering_scan (cstr : mid → String) (d : MutexDebugger) (t : Nat) (m : mid)
    (hm : m ≠ 0) (h : ¬ trapFires cstr d t m) (hc : d.bumped t m ≤ 1) :
    entering cstr d t m
      = ⟨scanOutcome (scan m (tableEntered cstr d t m) (touch [] d.followers m)).2,
          { d with
            us := assign d.us t (tableEntered cstr d t m),
            followers := (scan m (tableEntered cstr d t m) (touch [] d.followers m)).1 }⟩ := by
  rw [entering_first cstr d t m hm h hc]
  cases hs : scan m (tableEntered cstr d t m) (touch [] d.followers m) with
  | mk f1 o =>
    cases o <;> rfl

/-! ### Frame facts of `entering` -/

theorem entering_a (cstr : mid → String) (d : MutexDebugger) (t : Nat) (m : mid) :
    (entering cstr d t m).state.a = d.a
      ∧ (entering cstr d t m).state.b = d.b
      ∧ (entering cstr d t m).state.b_c_str = d.b_c_str := by
  by_cases hm : m = 0
  · subst hm; simp [entering_null]
  by_cases ht : trapFires cstr d t m
  · simp [entering_trap cstr d t m hm ht]
  by_cases hc : 1 < d.bumped t m
  · simp [entering_recursive cstr d t m hm ht hc]
  · simp [entering_scan cstr d t m hm ht (not_lt.mp hc)]

theorem held_with_us (d : MutexDebugger) (t : Nat) (p : Preceeding) (t2 : Nat) (j : mid)
    (mn : List (mid × Int)) (f : List (mid × List mid)) :
    MutexDebugger.held { d with us := assign d.us t p, maxNest := mn, followers := f } t2 j
      = if t2 = t then index 0 p j else d.held t2 j := by
  unfold MutexDebugger.held
  rw [table_with_us]
  by_cases h : t2 = t <;> simp [h]

/-- Hold counts after `entering`: only the count of the caller for `m` moves, by one, and
only when the call gets past the watched pair. -/
theorem held_entering (cstr : mid → String) (d : MutexDebugger) (t : Nat) (m : mid)
    (t2 : Nat) (j : mid) :
    (entering cstr d t m).state.held t2 j
      = if m ≠ 0 ∧ ¬ trapFires cstr d t m ∧ t2 = t ∧ j = m then d.bumped t m
        else d.held t2 j := by
  by_cases hm : m = 0
  · subst hm; simp [entering_null]
  by_cases ht : trapFires cstr d t m
  · rw [entering_trap cstr d t m hm ht]
    simp only [ht, not_true_eq_false, false_and, and_false, if_false]
    rw [held_with_us d t _ t2 j d.maxNest d.followers, index_tableChecked]
    by_cases h : t2 = t
    · subst h; simp
    · simp [h]
  have key : ∀ (mn : List (mid × Int)) (f : List (mid × List mid)),
      MutexDebugger.held
        { d with us := assign d.us t (tableEntered cstr d t m), maxNest := mn, followers := f }
        t2 j
        = if m ≠ 0 ∧ ¬ trapFires cstr d t m ∧ t2 = t ∧ j = m then d.bumped t m
          else d.held t2 j := by
    intro mn f
    rw [held_with_us, index_tableEntered]
    by_cases h : t2 = t
    · subst h
      by_cases hj : j = m <;> simp [hj, hm, ht]
    · simp [h]
  by_cases hc : 1 < d.bumped t m
  · rw [entering_recursive cstr d t m hm ht hc]
    exact key _ _
  · rw [entering_scan cstr d t m hm ht (not_lt.mp hc)]
    exact key _ _

/-- The call `entering` never removes an edge. -/
theorem edge_entering (cstr : mid → String) (d : MutexDebugger) (t : Nat) (m : mid)
    (x y : mid) (h : d.edge x y) : (entering cstr d t m).state.edge x y := by
  by_cases hm : m = 0
  · subst hm; simpa [entering_null] using h
  by_cases ht : trapFires cstr d t m
  · rw [entering_trap cstr d t m hm ht]; exact h
  by_cases hc : 1 < d.bumped t m
  · rw [entering_recursive cstr d t m hm ht hc]; exact h
  · rw [entering_scan cstr d t m hm ht (not_lt.mp hc)]
    exact scan_mono m _ _ x y ((hasEdge_touch d.followers m x y).mpr h)

theorem followers_entering_recursive (cstr : mid → String) (d : MutexDebugger) (t : Nat)
    (m : mid) (hc : 1 < d.bumped t m) : (entering cstr d t m).state.followers = d.followers := by
  by_cases hm : m = 0
  · subst hm; simp [entering_null]
  by_cases ht : trapFires cstr d t m
  · rw [entering_trap cstr d t m hm ht]
  · rw [entering_recursive cstr d t m hm ht hc]

theorem outcome_entering_trap (cstr : mid → String) (d : MutexDebugger) (t : Nat) (m : mid) :
    (entering cstr d t m).outcome = .watchedPair ↔ m ≠ 0 ∧ trapFires cstr d t m := by
  by_cases hm : m = 0
  · subst hm; simp [entering_null]
  by_cases ht : trapFires cstr d t m
  · simp [entering_trap cstr d t m hm ht, hm, ht]
  by_cases hc : 1 < d.bumped t m
  · simp [entering_recursive cstr d t m hm ht hc, ht]
  · rw [entering_scan cstr d t m hm ht (not_lt.mp hc)]
    simp only [ht, and_false, iff_false]
    cases (scan m (tableEntered cstr d t m) (touch [] d.followers m)).2 <;> simp [scanOutcome]

/-! ### The ways through `leaving` -/

theorem leaving_null (d : MutexDebugger) (t : Nat) : leaving d t 0 = ⟨.ok, d⟩ := by
  simp [leaving]

theorem leaving_no_table (d : MutexDebugger) (t : Nat) (m : mid) (hm : m ≠ 0)
    (h : find? d.us t = none) : leaving d t m = ⟨.nullDeref, d⟩ := by
  unfold leaving
  rw [if_neg hm, h]

theorem leaving_table (d : MutexDebugger) (t : Nat) (m : mid) (hm : m ≠ 0) (p : Preceeding)
    (h : find? d.us t = some p) :
    leaving d t m
      = ⟨if d.dropped t m < 0 then .unbalanced (d.dropped t m) else .ok,
          { d with us := assign d.us t (assign p m (d.dropped t m)) }⟩ := by
  have hp : d.table t = p := by simp [MutexDebugger.table, h]
  unfold leaving MutexDebugger.dropped MutexDebugger.held
  rw [if_neg hm, h, hp]
  simp only [index_assign_self]
  split <;> rfl

theorem leaving_frame (d : MutexDebugger) (t : Nat) (m : mid) :
    (leaving d t m).state.followers = d.followers
      ∧ (leaving d t m).state.maxNest = d.maxNest
      ∧ (leaving d t m).state.a = d.a
      ∧ (leaving d t m).state.b = d.b
      ∧ (leaving d t m).state.b_c_str = d.b_c_str := by
  by_cases hm : m = 0
  · subst hm; simp [leaving_null]
  cases h : find? d.us t with
  | none => simp [leaving_no_table d t m hm h]
  | some p => simp [leaving_table d t m hm p h]

/-- Hold counts after `leaving`: only the count of the caller for `m` moves, down by one,
and only when the caller has a table. -/
theorem held_leaving (d : MutexDebugger) (t : Nat) (m : mid) (t2 : Nat) (j : mid) :
    (leaving d t m).state.held t2 j
      = if m ≠ 0 ∧ find? d.us t ≠ none ∧ t2 = t ∧ j = m then d.dropped t m
        else d.held t2 j := by
  by_cases hm : m = 0
  · subst hm; simp [leaving_null]
  cases h : find? d.us t with
  | none => simp [leaving_no_table d t m hm h]
  | some p =>
    have hp : d.table t = p := by simp [MutexDebugger.table, h]
    rw [leaving_table d t m hm p h]
    rw [held_with_us d t _ t2 j d.maxNest d.followers, index_assign]
    by_cases ht : t2 = t
    · subst ht
      by_cases hj : j = m
      · simp [hj, hm]
      · simp [hj, MutexDebugger.held, hp]
    · simp [ht]

/-- A thread that holds something has a table. -/
theorem table_of_held (d : MutexDebugger) (t : Nat) (m : mid) (h : d.held t m ≠ 0) :
    find? d.us t ≠ none := by
  intro hn
  apply h
  simp [MutexDebugger.held, MutexDebugger.table, hn, index, find?]

theorem outcome_leaving (d : MutexDebugger) (t : Nat) (m : mid) (hm : m ≠ 0) :
    (leaving d t m).outcome
      = if find? d.us t = none then .nullDeref
        else if d.dropped t m < 0 then .unbalanced (d.dropped t m) else .ok := by
  cases h : find? d.us t with
  | none => simp [leaving_no_table d t m hm h]
  | some p =>
    rw [leaving_table d t m hm p h]
    simp

/-! ### Well-formed tables -/

theorem mem_touch {β : Type} (dflt : β) (l : List (Nat × β)) (k : Nat) (e : Nat × β)
    (h : e ∈ touch dflt l k) : e = (k, dflt) ∨ e ∈ l := by
  unfold touch at h
  cases hf : find? l k with
  | some v => rw [hf] at h; exact Or.inr h
  | none => rw [hf] at h; exact mem_assign l k dflt e h

theorem ordered_table (d : MutexDebugger) (hd : d.TablesOrdered) (t : Nat) :
    Ordered (d.table t) := by
  unfold MutexDebugger.table
  cases h : find? d.us t with
  | none => simp [Ordered]
  | some p => exact (hd (t, p) (mem_of_find? d.us t p h)).1

theorem isInt_table (d : MutexDebugger) (hd : d.TablesOrdered) (t : Nat) :
    ∀ x ∈ d.table t, IsInt x.2 := by
  unfold MutexDebugger.table
  cases h : find? d.us t with
  | none => intro x hx; simp at hx
  | some p => exact (hd (t, p) (mem_of_find? d.us t p h)).2

/-- Every hold count of a well-formed object is a value of the type `int`. -/
theorem isInt_held (d : MutexDebugger) (hd : d.TablesOrdered) (t : Nat) (m : mid) :
    IsInt (d.held t m) := by
  unfold MutexDebugger.held index
  cases hf : find? (d.table t) m with
  | none => exact isInt_zero
  | some c => exact isInt_table d hd t (m, c) (mem_of_find? _ _ _ hf)

theorem ordered_tableChecked (cstr : mid → String) (d : MutexDebugger) (hd : d.TablesOrdered)
    (t : Nat) (m : mid) : Ordered (tableChecked cstr d t m) := by
  unfold tableChecked
  split
  · exact ordered_touch 0 _ (ordered_table d hd t) _
  · exact ordered_table d hd t

theorem isInt_tableChecked (cstr : mid → String) (d : MutexDebugger) (hd : d.TablesOrdered)
    (t : Nat) (m : mid) : ∀ x ∈ tableChecked cstr d t m, IsInt x.2 := by
  intro x hx
  unfold tableChecked at hx
  split at hx
  · rcases mem_touch 0 _ _ x hx with h | h
    · subst h; exact isInt_zero
    · exact isInt_table d hd t x h
  · exact isInt_table d hd t x hx

theorem ordered_tableEntered (cstr : mid → String) (d : MutexDebugger) (hd : d.TablesOrdered)
    (t : Nat) (m : mid) : Ordered (tableEntered cstr d t m) :=
  ordered_assign _ (ordered_tableChecked cstr d hd t m) _ _

theorem isInt_tableEntered (cstr : mid → String) (d : MutexDebugger) (hd : d.TablesOrdered)
    (t : Nat) (m : mid) : ∀ x ∈ tableEntered cstr d t m, IsInt x.2 := by
  intro x hx
  rcases mem_assign _ _ _ x hx with h | h
  · subst h; exact wrapInt_isInt _
  · exact isInt_tableChecked cstr d hd t m x h

theorem tablesOrdered_with_us (d : MutexDebugger) (hd : d.TablesOrdered) (t : Nat)
    (p : Preceeding) (hp : Ordered p) (hi : ∀ x ∈ p, IsInt x.2) (mn : List (mid × Int))
    (f : List (mid × List mid)) :
    MutexDebugger.TablesOrdered
      { d with us := assign d.us t p, maxNest := mn, followers := f } := by
  intro e he
  rcases mem_assign d.us t p e he with h | h
  · subst h; exact ⟨hp, hi⟩
  · exact hd e h

theorem tablesOrdered_init (a b : String) (bp : mid) :
    (MutexDebugger.init a b bp).TablesOrdered := by
  intro e he
  simp [MutexDebugger.init] at he

theorem tablesOrdered_entering (cstr : mid → String) (d : MutexDebugger)
    (hd : d.TablesOrdered) (t : Nat) (m : mid) : (entering cstr d t m).state.TablesOrdered := by
  by_cases hm : m = 0
  · subst hm; simpa [entering_null] using hd
  by_cases ht : trapFires cstr d t m
  · rw [entering_trap cstr d t m hm ht]
    exact tablesOrdered_with_us d hd t _ (ordered_tableChecked cstr d hd t m)
      (isInt_tableChecked cstr d hd t m) d.maxNest d.followers
  by_cases hc : 1 < d.bumped t m
  · rw [entering_recursive cstr d t m hm ht hc]
    exact tablesOrdered_with_us d hd t _ (ordered_tableEntered cstr d hd t m)
      (isInt_tableEntered cstr d hd t m) _ d.followers
  · rw [entering_scan cstr d t m hm ht (not_lt.mp hc)]
    exact tablesOrdered_with_us d hd t _ (ordered_tableEntered cstr d hd t m)
      (isInt_tableEntered cstr d hd t m) d.maxNest _

theorem tablesOrdered_leaving (d : MutexDebugger) (hd : d.TablesOrdered) (t : Nat) (m : mid) :
    (leaving d t m).state.TablesOrdered := by
  by_cases hm : m = 0
  · subst hm; simpa [leaving_null] using hd
  cases h : find? d.us t with
  | none => simpa [leaving_no_table d t m hm h] using hd
  | some p =>
    rw [leaving_table d t m hm p h]
    have hp := hd (t, p) (mem_of_find? d.us t p h)
    refine tablesOrdered_with_us d hd t _ (ordered_assign p hp.1 _ _) ?_ d.maxNest d.followers
    intro x hx
    rcases mem_assign _ _ _ x hx with h1 | h1
    · subst h1; exact wrapInt_isInt _
    · exact hp.2 x h1

theorem tablesOrdered_step (cstr : mid → String) (d : MutexDebugger) (hd : d.TablesOrdered)
    (c : Call) : (step cstr d c).state.TablesOrdered := by
  cases c with
  | acquire t m => exact tablesOrdered_entering cstr d hd t m
  | release t m => exact tablesOrdered_leaving d hd t m

theorem tablesOrdered_run (cstr : mid → String) (d : MutexDebugger) (hd : d.TablesOrdered)
    (cs : List Call) : (run cstr d cs).TablesOrdered := by
  induction cs generalizing d with
  | nil => exact hd
  | cons c cs ih => exact ih _ (tablesOrdered_step cstr d hd c)

/-! ### First acquisitions -/

/-- An entry of the table scanned by `entering`, other than the one of `m`, with a positive
count, is a positive hold count of the caller before the call. -/
theorem held_of_mem_tableEntered (cstr : mid → String) (d : MutexDebugger)
    (hd : d.TablesOrdered) (t : Nat) (m k : mid) (c : Int)
    (hk : (k, c) ∈ tableEntered cstr d t m) (hne : k ≠ m) : d.held t k = c := by
  have h1 := find?_of_mem _ (ordered_tableEntered cstr d hd t m) k c hk
  have h2 := index_tableEntered cstr d t m k
  rw [if_neg hne] at h2
  rw [← h2]
  simp [index, h1]

/-- A positive hold count of the caller is an entry of the table scanned by `entering`. -/
theorem mem_tableEntered_of_held (cstr : mid → String) (d : MutexDebugger) (t : Nat)
    (m k : mid) (hne : k ≠ m) (hc : 0 < d.held t k) :
    (k, d.held t k) ∈ tableEntered cstr d t m := by
  have h2 := index_tableEntered cstr d t m k
  rw [if_neg hne] at h2
  cases h : find? (tableEntered cstr d t m) k with
  | none =>
    simp only [index, h, Option.getD_none] at h2
    omega
  | some v =>
    simp only [index, h, Option.getD_some] at h2
    subst h2
    exact mem_of_find? _ _ _ h

/-- What a first acquisition returns: the loop breaks exactly at a held identity that is
already a follower of `m`. -/
theorem outcome_entering_first (cstr : mid → String) (d : MutexDebugger) (t : Nat) (m : mid)
    (hm : m ≠ 0) (ht : ¬ trapFires cstr d t m) (hc : d.bumped t m ≤ 1) :
    ((entering cstr d t m).outcome = .ok
        ∧ ∀ j, j ≠ m → 0 < d.held t j →
            ¬ d.edge m j ∧ (entering cstr d t m).state.edge j m)
      ∨ ∃ bad, (entering cstr d t m).outcome = .orderViolation bad
          ∧ bad ≠ m ∧ d.edge m bad ∧ (entering cstr d t m).state.edge bad m
          ∧ ∃ c, (bad, c) ∈ tableEntered cstr d t m ∧ 0 < c := by
  rw [entering_scan cstr d t m hm ht hc]
  cases hs : (scan m (tableEntered cstr d t m) (touch [] d.followers m)).2 with
  | none =>
    left
    refine ⟨rfl, ?_⟩
    intro j hj hjc
    have := scan_none m _ _ hs j _ (mem_tableEntered_of_held cstr d t m j hj hjc) hj hjc
    exact ⟨fun he => this.1 ((hasEdge_touch d.followers m m j).mpr he), this.2⟩
  | some bad =>
    right
    obtain ⟨h1, h2, h3, h4⟩ := scan_some m _ _ bad hs
    exact ⟨bad, rfl, h1, (hasEdge_touch d.followers m m bad).mp h2, h3, h4⟩

/-- Every edge present after `entering` was present before or leads to `m` from an
identity in the table of the caller with a positive count; the latter only on a first
acquisition. -/
theorem edge_entering_new (cstr : mid → String) (d : MutexDebugger) (t : Nat) (m : mid)
    (x y : mid) (h : (entering cstr d t m).state.edge x y) :
    d.edge x y
      ∨ (m ≠ 0 ∧ ¬ trapFires cstr d t m ∧ d.bumped t m ≤ 1 ∧ y = m ∧ x ≠ m
          ∧ ∃ c, (x, c) ∈ tableEntered cstr d t m ∧ 0 < c) := by
  by_cases hm : m = 0
  · subst hm; left; simpa [entering_null] using h
  by_cases ht : trapFires cstr d t m
  · rw [entering_trap cstr d t m hm ht] at h; exact Or.inl h
  by_cases hc : 1 < d.bumped t m
  · rw [entering_recursive cstr d t m hm ht hc] at h; exact Or.inl h
  · rw [entering_scan cstr d t m hm ht (not_lt.mp hc)] at h
    rcases scan_new m _ _ x y h with h1 | ⟨h1, h2, h3⟩
    · exact Or.inl ((hasEdge_touch d.followers m x y).mp h1)
    · exact Or.inr ⟨hm, ht, not_lt.mp hc, h1, h2, h3⟩

/-- On a first acquisition of a well-formed table, the identity reported by an order
violation is held by the caller and is already a follower of `m`. -/
theorem order_violation_held (cstr : mid → String) (d : MutexDebugger) (hd : d.TablesOrdered)
    (t : Nat) (m : mid) (hm : m ≠ 0) (ht : ¬ trapFires cstr d t m) (hc : d.bumped t m ≤ 1)
    (bad : mid) (h : (entering cstr d t m).outcome = .orderViolation bad) :
    bad ≠ m ∧ 0 < d.held t bad ∧ d.edge m bad := by
  rcases outcome_entering_first cstr d t m hm ht hc with ⟨h1, _⟩ | ⟨b2, h1, h2, h3, _, c, h4, h5⟩
  · rw [h1] at h; cases h
  · rw [h1] at h
    cases h
    refine ⟨h2, ?_, h3⟩
    rw [held_of_mem_tableEntered cstr d hd t m bad c h4 h2]
    exact h5

/-- A call of `entering` that is not stopped by the watched pair returns normally when no
identity held by the caller is a follower of `m`. -/
theorem entering_ok_of_no_conflict (cstr : mid → String) (d : MutexDebugger)
    (hd : d.TablesOrdered) (t : Nat) (m : mid) (ht : ¬ trapFires cstr d t m)
    (h : ∀ j, j ≠ m → 0 < d.held t j → ¬ d.edge m j) :
    (entering cstr d t m).outcome = .ok := by
  by_cases hm : m = 0
  · subst hm; simp [entering_null]
  by_cases hc : 1 < d.bumped t m
  · rw [entering_recursive cstr d t m hm ht hc]
  · rcases outcome_entering_first cstr d t m hm ht (not_lt.mp hc) with ⟨h1, _⟩ | ⟨bad, h1, _⟩
    · exact h1
    · obtain ⟨h2, h3, h4⟩ := order_violation_held cstr d hd t m hm ht (not_lt.mp hc) bad h1
      exact absurd h4 (h bad h2 h3)

/-- Without positive hold counts of the caller other than for `m`, `entering` adds no
edge. -/
theorem edge_entering_of_none_held (cstr : mid → String) (d : MutexDebugger)
    (hd : d.TablesOrdered) (t : Nat) (m : mid) (h : ∀ j, j ≠ m → d.held t j ≤ 0)
    (x y : mid) (he : (entering cstr d t m).state.edge x y) : d.edge x y := by
  rcases edge_entering_new cstr d t m x y he with h1 | ⟨_, _, _, _, h2, c, h3, h4⟩
  · exact h1
  · have := held_of_mem_tableEntered cstr d hd t m x c h3 h2
    have := h x h2
    omega

theorem held_init (a b : String) (bp : mid) (t : Nat) (j : mid) :
    (MutexDebugger.init a b bp).held t j = 0 := by
  simp [MutexDebugger.init, MutexDebugger.held, MutexDebugger.table, index, find?]

theorem edge_init (a b : String) (bp : mid) (x y : mid) :
    ¬ (MutexDebugger.init a b bp).edge x y := by
  simp [MutexDebugger.init, MutexDebugger.edge, hasEdge, index, find?]

/-! ### The table `maxNest` -/

theorem maxNest_entering (cstr : mid → String) (d : MutexDebugger) (t : Nat) (m j : mid) :
    index 0 (entering cstr d t m).state.maxNest j
      = if m ≠ 0 ∧ ¬ trapFires cstr d t m ∧ 1 < d.bumped t m ∧ j = m
            ∧ index 0 d.maxNest m < d.bumped t m
        then d.bumped t m else index 0 d.maxNest j := by
  by_cases hm : m = 0
  · subst hm; simp [entering_null]
  by_cases ht : trapFires cstr d t m
  · simp [entering_trap cstr d t m hm ht, ht]
  by_cases hc : 1 < d.bumped t m
  · rw [entering_recursive cstr d t m hm ht hc]
    simp only
    by_cases hlt : index 0 d.maxNest m < d.bumped t m
    · rw [if_pos hlt, index_assign, index_touch]
      by_cases hj : j = m
      · rw [if_pos hj, if_pos ⟨hm, ht, hc, hj, hlt⟩]
      · rw [if_neg hj, if_neg (fun hh => hj hh.2.2.2.1)]
    · rw [if_neg hlt, index_touch, if_neg (fun hh => hlt hh.2.2.2.2)]
  · rw [entering_scan cstr d t m hm ht (not_lt.mp hc), if_neg (fun hh => hc hh.2.2.1)]

/-- No call lowers an entry of `maxNest`. -/
theorem maxNest_step_le (cstr : mid → String) (d : MutexDebugger) (c : Call) (j : mid) :
    index 0 d.maxNest j ≤ index 0 (step cstr d c).state.maxNest j := by
  cases c with
  | acquire t m =>
    show _ ≤ index 0 (entering cstr d t m).state.maxNest j
    rw [maxNest_entering]
    split
    · rename_i h
      obtain ⟨_, _, _, h4, h5⟩ := h
      rw [h4]
      exact le_of_lt h5
    · exact le_refl _
  | release t m =>
    show _ ≤ index 0 (leaving d t m).state.maxNest j
    rw [(leaving_frame d t m).2.1]

/-- A call that returns normally keeps the invariant `HighWater`. -/
theorem highWater_step (cstr : mid → String) (d : MutexDebugger) (hd : d.TablesOrdered)
    (c : Call) (j : mid) (h : HighWater j d) (hok : (step cstr d c).outcome = .ok) :
    HighWater j (step cstr d c).state := by
  intro t2
  have hmono := maxNest_step_le cstr d c j
  obtain ⟨h2, h3⟩ := h t2
  have hi := isInt_held d hd t2 j
  unfold IsInt intMin intMax at hi
  unfold intMax at h3 ⊢
  cases c with
  | acquire t m =>
    have hmx := maxNest_entering cstr d t m j
    have hh := held_entering cstr d t m t2 j
    simp only [step] at hmono hok ⊢
    by_cases hinc : m ≠ 0 ∧ ¬ trapFires cstr d t m ∧ t2 = t ∧ j = m
    · rw [if_pos hinc] at hh
      obtain ⟨h1, h4, h5, h6⟩ := hinc
      subst h5 h6
      have hb : d.bumped t2 j = wrapInt (d.held t2 j + 1) := rfl
      unfold wrapInt at hb
      by_cases hc : 1 < d.bumped t2 j
      · by_cases hlt : index 0 d.maxNest j < d.bumped t2 j
        · rw [if_pos ⟨h1, h4, hc, rfl, hlt⟩] at hmx
          rw [hh, hmx]
          omega
        · rw [hh]
          omega
      · rw [hh]
        omega
    · rw [if_neg hinc] at hh
      rw [hh]
      omega
  | release t m =>
    have hh := held_leaving d t m t2 j
    simp only [step] at hmono hok ⊢
    by_cases hdec : m ≠ 0 ∧ find? d.us t ≠ none ∧ t2 = t ∧ j = m
    · rw [if_pos hdec] at hh
      obtain ⟨h1, h4, h5, h6⟩ := hdec
      subst h5 h6
      have ho := outcome_leaving d t2 j h1
      rw [if_neg h4, hok] at ho
      have hge : ¬ d.dropped t2 j < 0 := by
        intro hlt
        rw [if_pos hlt] at ho
        cases ho
      have hb : d.dropped t2 j = wrapInt (d.held t2 j - 1) := rfl
      unfold wrapInt at hb
      rw [hh]
      omega
    · rw [if_neg hdec] at hh
      rw [hh]
      omega

/-- One call leaves an entry of `maxNest` as it was, or sets it to a hold count of at
least `2` that the caller has just reached. -/
theorem maxNest_step_attained (cstr : mid → String) (d : MutexDebugger) (c : Call) (j : mid) :
    index 0 (step cstr d c).state.maxNest j = index 0 d.maxNest j
      ∨ (2 ≤ index 0 (step cstr d c).state.maxNest j
          ∧ ∃ t, (step cstr d c).state.held t j = index 0 (step cstr d c).state.maxNest j) := by
  cases c with
  | acquire t m =>
    have hmx := maxNest_entering cstr d t m j
    simp only [step]
    by_cases hup : m ≠ 0 ∧ ¬ trapFires cstr d t m ∧ 1 < d.bumped t m ∧ j = m
        ∧ index 0 d.maxNest m < d.bumped t m
    · rw [if_pos hup] at hmx
      obtain ⟨h1, h2, h3, h4, _⟩ := hup
      subst h4
      right
      refine ⟨by rw [hmx]; omega, t, ?_⟩
      rw [hmx, held_entering, if_pos ⟨h1, h2, rfl, rfl⟩]
    · rw [if_neg hup] at hmx
      exact Or.inl hmx
  | release t m =>
    left
    show index 0 (leaving d t m).state.maxNest j = _
    rw [(leaving_frame d t m).2.1]

theorem mem_trace_self (cstr : mid → String) (d : MutexDebugger) (cs : List Call) :
    d ∈ trace cstr d cs := by
  cases cs <;> simp [trace]

theorem run_mem_trace (cstr : mid → String) (d : MutexDebugger) (cs : List Call) :
    run cstr d cs ∈ trace cstr d cs := by
  induction cs generalizing d with
  | nil => simp [run, trace]
  | cons c cs ih => exact List.mem_cons_of_mem _ (ih _)

/-- Along a sequence of calls the entry of `maxNest` only grows, and ends as it began or
as a hold count of at least `2` that was reached. -/
theorem maxNest_trace (cstr : mid → String) (j : mid) (cs : List Call) (d : MutexDebugger) :
    (∀ s ∈ trace cstr d cs, index 0 s.maxNest j ≤ index 0 (run cstr d cs).maxNest j)
      ∧ (index 0 (run cstr d cs).maxNest j = index 0 d.maxNest j
          ∨ (2 ≤ index 0 (run cstr d cs).maxNest j
              ∧ ∃ s ∈ trace cstr d cs, ∃ t,
                  s.held t j = index 0 (run cstr d cs).maxNest j)) := by
  induction cs generalizing d with
  | nil =>
    refine ⟨?_, Or.inl rfl⟩
    intro s hs
    simp only [trace, List.mem_singleton] at hs
    subst hs
    exact le_refl _
  | cons c cs ih =>
    obtain ⟨i1, i3⟩ := ih (step cstr d c).state
    have hfirst := i1 _ (mem_trace_self cstr (step cstr d c).state cs)
    have hmono := maxNest_step_le cstr d c j
    refine ⟨?_, ?_⟩
    · intro s hs
      simp only [trace, List.mem_cons] at hs
      rcases hs with hs | hs
      · subst hs; exact le_trans hmono hfirst
      · exact i1 s hs
    · rcases i3 with h3 | ⟨h3, s, hs, t, h4⟩
      · rcases maxNest_step_attained cstr d c j with h5 | ⟨h5, t, h6⟩
        · left
          show index 0 (run cstr (step cstr d c).state cs).maxNest j = _
          rw [h3, h5]
        · right
          have hrun : run cstr d (c :: cs) = run cstr (step cstr d c).state cs := rfl
          rw [hrun, h3]
          exact ⟨h5, (step cstr d c).state,
            List.mem_cons_of_mem _ (mem_trace_self cstr _ cs), t, h6⟩
      · right
        exact ⟨h3, s, List.mem_cons_of_mem _ hs, t, h4⟩

/-- Along a sequence of calls that all return normally, every hold count reached is at
most the larger of `1` and the final entry of `maxNest`. -/
theorem held_le_maxNest_trace (cstr : mid → String) (j : mid) (cs : List Call)
    (d : MutexDebugger) (hd : d.TablesOrdered) (h : HighWater j d)
    (hok : ∀ o ∈ outcomes cstr d cs, o = .ok) :
    ∀ s ∈ trace cstr d cs, ∀ t,
      s.held t j ≤ max 1 (index 0 (run cstr d cs).maxNest j) := by
  induction cs generalizing d with
  | nil =>
    intro s hs t
    simp only [trace, List.mem_singleton] at hs
    subst hs
    exact (h t).1
  | cons c cs ih =>
    have h1 : (step cstr d c).outcome = .ok := hok _ (by simp [outcomes])
    have h2 : ∀ o ∈ outcomes cstr (step cstr d c).state cs, o = .ok :=
      fun o ho => hok o (by simp only [outcomes, List.mem_cons]; exact Or.inr ho)
    have i2 := ih (step cstr d c).state (tablesOrdered_step cstr d hd c)
      (highWater_step cstr d hd c j h h1) h2
    have hmono := (maxNest_trace cstr j (c :: cs) d).1 d (mem_trace_self cstr d (c :: cs))
    intro s hs t
    simp only [trace, List.mem_cons] at hs
    rcases hs with hs | hs
    · subst hs
      exact le_trans (h t).1 (max_le_max (le_refl _) hmono)
    · exact i2 s hs t

/-! ### Sequences that only nest `A` then `B` -/

theorem order_violation_first (cstr : mid → String) (d : MutexDebugger) (t : Nat) (m : mid)
    (bad : mid) (h : (entering cstr d t m).outcome = .orderViolation bad) :
    m ≠ 0 ∧ ¬ trapFires cstr d t m ∧ d.bumped t m ≤ 1 := by
  by_cases hm : m = 0
  · subst hm; simp [entering_null] at h
  by_cases ht : trapFires cstr d t m
  · simp [entering_trap cstr d t m hm ht] at h
  by_cases hc : 1 < d.bumped t m
  · simp [entering_recursive cstr d t m hm ht hc] at h
  · exact ⟨hm, ht, not_lt.mp hc⟩

theorem nestInv_entering (cstr : mid → String) (A B : mid) (d : MutexDebugger)
    (hi : NestInv A B d) (t : Nat) (m : mid) (hm : m = A ∨ m = B)
    (hA : m = A → d.held t B ≤ 0) : NestInv A B (entering cstr d t m).state := by
  obtain ⟨h1, h2, h3⟩ := hi
  refine ⟨tablesOrdered_entering cstr d h1 t m, ?_, ?_⟩
  · intro t2 k hk
    rw [held_entering] at hk
    split at hk
    · rename_i hc
      rw [hc.2.2.2]
      exact hm
    · exact h2 t2 k hk
  · intro he
    rcases edge_entering_new cstr d t m B A he with h4 | ⟨_, _, _, h5, h6, c, h7, h8⟩
    · exact h3 h4
    · have h9 := held_of_mem_tableEntered cstr d h1 t m B c h7 h6
      have h10 := hA h5.symm
      omega

theorem nestInv_leaving (A B : mid) (d : MutexDebugger) (hi : NestInv A B d) (t : Nat)
    (m : mid) (hm : m = A ∨ m = B) : NestInv A B (leaving d t m).state := by
  obtain ⟨h1, h2, h3⟩ := hi
  refine ⟨tablesOrdered_leaving d h1 t m, ?_, ?_⟩
  · intro t2 k hk
    rw [held_leaving] at hk
    split at hk
    · rename_i hc
      rw [hc.2.2.2]
      exact hm
    · exact h2 t2 k hk
  · intro he
    apply h3
    show hasEdge d.followers B A
    rw [← (leaving_frame d t m).1]
    exact he

theorem no_order_violation_from (cstr : mid → String) (A B : mid) (cs : List Call)
    (d : MutexDebugger) (hi : NestInv A B d) (h : onlyAThenB cstr A B d cs = true) :
    ∀ o ∈ outcomes cstr d cs, ∀ bad, o ≠ .orderViolation bad := by
  induction cs generalizing d with
  | nil => intro o ho; simp [outcomes] at ho
  | cons c cs ih =>
    cases c with
    | acquire t m =>
      simp only [onlyAThenB, Bool.and_eq_true, decide_eq_true_eq] at h
      obtain ⟨⟨hm, hA⟩, hrest⟩ := h
      intro o ho bad
      simp only [outcomes, step, List.mem_cons] at ho
      rcases ho with ho | ho
      · subst ho
        intro hv
        obtain ⟨h1, h2, h3⟩ := order_violation_first cstr d t m bad hv
        obtain ⟨h4, h5, h6⟩ := order_violation_held cstr d hi.1 t m h1 h2 h3 bad hv
        rcases hm with hm | hm
        · rcases hi.2.1 t bad h5 with hb | hb
          · exact h4 (hb.trans hm.symm)
          · have := hA hm
            rw [hb] at h5
            omega
        · rcases hi.2.1 t bad h5 with hb | hb
          · rw [hb, hm] at h6
            exact hi.2.2 h6
          · exact h4 (hb.trans hm.symm)
      · exact ih _ (nestInv_entering cstr A B d hi t m hm hA) hrest o ho bad
    | release t m =>
      simp only [onlyAThenB, Bool.and_eq_true, decide_eq_true_eq] at h
      obtain ⟨hm, hrest⟩ := h
      intro o ho bad
      simp only [outcomes, step, List.mem_cons] at ho
      rcases ho with ho | ho
      · subst ho
        by_cases hm0 : m = 0
        · subst hm0; simp [leaving_null]
        · rw [outcome_leaving d t m hm0]
          split
          · simp
          · split <;> simp
      · exact ih _ (nestInv_leaving A B d hi t m hm) hrest o ho bad

theorem nestInv_init (A B : mid) (a b : String) (bp : mid) :
    NestInv A B (MutexDebugger.init a b bp) := by
  refine ⟨tablesOrdered_init a b bp, ?_, edge_init a b bp B A⟩
  intro t k hk
  rw [held_init] at hk
  exact absurd hk (by decide)

/-! ### Hold counts along calls that return normally -/

theorem held_nonneg_of_entries (d : MutexDebugger) (h : d.EntriesNonneg) (t : Nat) (m : mid) :
    0 ≤ d.held t m := by
  unfold MutexDebugger.held MutexDebugger.table index
  cases hu : find? d.us t with
  | none => simp [find?]
  | some p =>
    cases hp : find? p m with
    | none => simp [hp]
    | some c =>
      simp only [Option.getD_some, hp]
      exact h (t, p) (mem_of_find? d.us t p hu) (m, c) (mem_of_find? p m c hp)

theorem entriesNonneg_with_us (d : MutexDebugger) (hd : d.EntriesNonneg) (t : Nat)
    (p : Preceeding) (hp : ∀ x ∈ p, 0 ≤ x.2) (mn : List (mid × Int))
    (f : List (mid × List mid)) :
    MutexDebugger.EntriesNonneg
      { d with us := assign d.us t p, maxNest := mn, followers := f } := by
  intro e he
  rcases mem_assign d.us t p e he with h | h
  · subst h; exact hp
  · exact hd e h

theorem nonneg_table (d : MutexDebugger) (hd : d.EntriesNonneg) (t : Nat) :
    ∀ x ∈ d.table t, 0 ≤ x.2 := by
  unfold MutexDebugger.table
  cases hu : find? d.us t with
  | none => intro x hx; simp at hx
  | some p => exact hd (t, p) (mem_of_find? d.us t p hu)

theorem nonneg_tableEntered (cstr : mid → String) (d : MutexDebugger) (hd : d.EntriesNonneg)
    (t : Nat) (m : mid) (hlt : d.held t m < intMax) :
    ∀ x ∈ tableEntered cstr d t m, 0 ≤ x.2 := by
  intro x hx
  have hc : ∀ y ∈ tableChecked cstr d t m, 0 ≤ y.2 := by
    intro y hy
    unfold tableChecked at hy
    split at hy
    · rcases mem_touch 0 _ _ y hy with h | h
      · subst h; exact le_refl _
      · exact nonneg_table d hd t y h
    · exact nonneg_table d hd t y hy
  rcases mem_assign _ _ _ x hx with h | h
  · subst h
    simp only
    rw [index_tableChecked]
    have := held_nonneg_of_entries d hd t m
    unfold intMax at hlt
    unfold wrapInt
    omega
  · exact hc x h

/-- A call that returns normally and does not wrap a count keeps every entry of every
table non-negative. -/
theorem entriesNonneg_step (cstr : mid → String) (d : MutexDebugger) (hd : d.EntriesNonneg)
    (c : Call) (hok : (step cstr d c).outcome = .ok)
    (hlt : ∀ t m, c = .acquire t m → d.held t m < intMax) :
    (step cstr d c).state.EntriesNonneg := by
  cases c with
  | acquire t m =>
    simp only [step] at hok ⊢
    have hlt2 := hlt t m rfl
    by_cases hm : m = 0
    · subst hm; simpa [entering_null] using hd
    by_cases ht : trapFires cstr d t m
    · rw [entering_trap cstr d t m hm ht] at hok; cases hok
    by_cases hc : 1 < d.bumped t m
    · rw [entering_recursive cstr d t m hm ht hc]
      exact entriesNonneg_with_us d hd t _ (nonneg_tableEntered cstr d hd t m hlt2) _ d.followers
    · rw [entering_scan cstr d t m hm ht (not_lt.mp hc)]
      exact entriesNonneg_with_us d hd t _ (nonneg_tableEntered cstr d hd t m hlt2) d.maxNest _
  | release t m =>
    simp only [step] at hok ⊢
    by_cases hm : m = 0
    · subst hm; simpa [leaving_null] using hd
    cases hu : find? d.us t with
    | none => rw [leaving_no_table d t m hm hu] at hok; cases hok
    | some p =>
      rw [leaving_table d t m hm p hu] at hok ⊢
      have hge : ¬ d.dropped t m < 0 := by
        intro hlt
        simp [hlt] at hok
      refine entriesNonneg_with_us d hd t _ ?_ d.maxNest d.followers
      intro x hx
      rcases mem_assign _ _ _ x hx with h | h
      · subst h; simp only; omega
      · exact hd (t, p) (mem_of_find? d.us t p hu) x h

theorem entriesNonneg_run (cstr : mid → String) (cs : List Call) (d : MutexDebugger)
    (hd : d.EntriesNonneg) (hok : ∀ o ∈ outcomes cstr d cs, o = .ok)
    (hlt : neverAtIntMax cstr d cs = true) :
    (run cstr d cs).EntriesNonneg := by
  induction cs generalizing d with
  | nil => exact hd
  | cons c cs ih =>
    have h1 : (step cstr d c).outcome = .ok := hok _ (by simp [outcomes])
    have h2 : ∀ o ∈ outcomes cstr (step cstr d c).state cs, o = .ok :=
      fun o ho => hok o (by simp only [outcomes, List.mem_cons]; exact Or.inr ho)
    cases c with
    | acquire t m =>
      simp only [neverAtIntMax, Bool.and_eq_true, decide_eq_true_eq] at hlt
      refine ih _ (entriesNonneg_step cstr d hd _ h1 ?_) h2 hlt.2
      intro t2 m2 he
      cases he
      exact hlt.1
    | release t m =>
      simp only [neverAtIntMax] at hlt
      refine ih _ (entriesNonneg_step cstr d hd _ h1 ?_) h2 hlt
      intro t2 m2 he
      cases he

/-! ### The listing of `currentlyLocked` -/

theorem lockedLoop_eq (cstr : mid → String) (p : Preceeding) (q : String) :
    lockedLoop cstr p q
      = (p.filter (fun e => decide (0 < e.2))).foldl
          (fun acc e => acc ++ lockedLine cstr e.1 e.2) q := by
  induction p generalizing q with
  | nil => rfl
  | cons e rest ih =>
    obtain ⟨k, c⟩ := e
    unfold lockedLoop
    by_cases hc : c > 0
    · have hc2 : 0 < c := hc
      rw [if_pos hc, ih]
      simp only [List.filter_cons, hc2, decide_True, if_true, List.foldl_cons, lockedLine,
        String.append_assoc]
    · have hc2 : ¬ 0 < c := hc
      rw [if_neg hc, ih]
      simp only [List.filter_cons, hc2, decide_False, Bool.false_eq_true, if_false]

theorem mem_lockedEntries (d : MutexDebugger) (hd : d.TablesOrdered) (t : Nat) (k : mid)
    (c : Int) : (k, c) ∈ lockedEntries d t ↔ 0 < c ∧ d.held t k = c := by
  unfold lockedEntries
  simp only [List.mem_filter, decide_eq_true_eq]
  constructor
  · rintro ⟨h1, h2⟩
    refine ⟨h2, ?_⟩
    have := find?_of_mem _ (ordered_table d hd t) k c h1
    simp [MutexDebugger.held, index, this]
  · rintro ⟨h1, h2⟩
    refine ⟨?_, h1⟩
    unfold MutexDebugger.held index at h2
    cases hf : find? (d.table t) k with
    | none =>
      rw [hf] at h2
      simp only [Option.getD_none] at h2
      omega
    | some v =>
      rw [hf] at h2
      simp only [Option.getD_some] at h2
      subst h2
      exact mem_of_find? _ _ _ hf

theorem nodup_lockedEntries (d : MutexDebugger) (hd : d.TablesOrdered) (t : Nat) :
    ((lockedEntries d t).map Prod.fst).Nodup := by
  have h1 : ((d.table t).map Prod.fst).Pairwise (· < ·) := ordered_table d hd t
  have h2 : ((d.table t).map Prod.fst).Nodup := h1.imp (fun h => Nat.ne_of_lt h)
  unfold lockedEntries
  exact (List.Sublist.map Prod.fst (List.filter_sublist _)).nodup h2

/-! ### Edges after a first acquisition -/

/-- The edges after a first acquisition that returned normally. -/
theorem edge_entering_first_ok (cstr : mid → String) (d : MutexDebugger)
    (hd : d.TablesOrdered) (t : Nat) (m : mid) (hm : m ≠ 0) (hc : d.bumped t m ≤ 1)
    (hok : (entering cstr d t m).outcome = .ok) (x y : mid) :
    (entering cstr d t m).state.edge x y
      ↔ d.edge x y ∨ (y = m ∧ x ≠ m ∧ 0 < d.held t x) := by
  have ht : ¬ trapFires cstr d t m := by
    intro h
    have := (outcome_entering_trap cstr d t m).mpr ⟨hm, h⟩
    rw [hok] at this
    cases this
  constructor
  · intro h
    rcases edge_entering_new cstr d t m x y h with h1 | ⟨_, _, _, h2, h3, c, h4, h5⟩
    · exact Or.inl h1
    · right
      refine ⟨h2, h3, ?_⟩
      rw [held_of_mem_tableEntered cstr d hd t m x c h4 h3]
      exact h5
  · rintro (h | ⟨h1, h2, h3⟩)
    · exact edge_entering cstr d t m x y h
    · rcases outcome_entering_first cstr d t m hm ht hc with ⟨_, h4⟩ | ⟨bad, h4, _⟩
      · subst h1
        exact (h4 x h2 h3).2
      · rw [hok] at h4; cases h4

/-- No call of `entering` adds an edge from an identity to itself. -/
theorem self_edge_entering (cstr : mid → String) (d : MutexDebugger) (t : Nat) (m x : mid)
    (h : (entering cstr d t m).state.edge x x) : d.edge x x := by
  rcases edge_entering_new cstr d t m x x h with h1 | ⟨_, _, _, h2, h3, _⟩
  · exact h1
  · exact absurd h2 h3

theorem antisymmetric_entering (cstr : mid → String) (d : MutexDebugger)
    (hd : d.TablesOrdered) (ha : d.Antisymmetric) (t : Nat) (m : mid)
    (hno : ∀ bad, (entering cstr d t m).outcome ≠ .orderViolation bad) :
    (entering cstr d t m).state.Antisymmetric := by
  by_cases hm : m = 0
  · subst hm; simpa [entering_null] using ha
  by_cases ht : trapFires cstr d t m
  · rw [entering_trap cstr d t m hm ht]; exact ha
  by_cases hc : 1 < d.bumped t m
  · rw [entering_recursive cstr d t m hm ht hc]; exact ha
  have hc2 : d.bumped t m ≤ 1 := not_lt.mp hc
  have hok : (entering cstr d t m).outcome = .ok := by
    rcases outcome_entering_first cstr d t m hm ht hc2 with ⟨h, _⟩ | ⟨bad, h, _⟩
    · exact h
    · exact absurd h (hno bad)
  have hfree : ∀ j, j ≠ m → 0 < d.held t j → ¬ d.edge m j := by
    intro j hj hjc
    rcases outcome_entering_first cstr d t m hm ht hc2 with ⟨_, h⟩ | ⟨bad, h, _⟩
    · exact (h j hj hjc).1
    · exact absurd h (hno bad)
  intro x y hxy hyx
  rw [edge_entering_first_ok cstr d hd t m hm hc2 hok] at hxy hyx
  rcases hxy with h1 | ⟨h1, h2, h3⟩
  · rcases hyx with h4 | ⟨h4, h5, h6⟩
    · exact ha x y h1 h4
    · subst h4
      exact hfree y h5 h6 h1
  · rcases hyx with h4 | ⟨h4, _, _⟩
    · subst h1
      exact hfree x h2 h3 h4
    · subst h1
      exact h2 h4

theorem antisymmetric_run (cstr : mid → String) (cs : List Call) (d : MutexDebugger)
    (hd : d.TablesOrdered) (ha : d.Antisymmetric)
    (hno : ∀ o ∈ outcomes cstr d cs, ∀ bad, o ≠ .orderViolation bad) :
    (run cstr d cs).Antisymmetric := by
  induction cs generalizing d with
  | nil => exact ha
  | cons c cs ih =>
    have h1 : ∀ bad, (step cstr d c).outcome ≠ .orderViolation bad :=
      hno _ (by simp [outcomes])
    have h2 : ∀ o ∈ outcomes cstr (step cstr d c).state cs, ∀ bad, o ≠ .orderViolation bad :=
      fun o ho => hno o (by simp only [outcomes, List.mem_cons]; exact Or.inr ho)
    refine ih _ (tablesOrdered_step cstr d hd c) ?_ h2
    cases c with
    | acquire t m => exact antisymmetric_entering cstr d hd ha t m h1
    | release t m =>
      intro x y hxy hyx
      have hf : (step cstr d (.release t m)).state.followers = d.followers :=
        (leaving_frame d t m).1
      unfold MutexDebugger.edge at hxy hyx
      rw [hf] at hxy hyx
      exact ha x y hxy hyx

theorem threeCycle_no_order_violation :
    ∀ o ∈ outcomes sampleMem (MutexDebugger.init "" "" 999) threeCycleCalls,
      ∀ bad, o ≠ Outcome.orderViolation bad := by
  have h : outcomes sampleMem (MutexDebugger.init "" "" 999) threeCycleCalls
      = List.replicate 10 Outcome.ok := by decide
  intro o ho bad
  rw [h] at ho
  have := List.eq_of_mem_replicate ho
  subst this
  simp

/-! ### Calls that return normally, and calls of two threads -/

theorem no_trap_of_ok (cstr : mid → String) (d : MutexDebugger) (t : Nat) (m : mid)
    (hm : m ≠ 0) (hok : (entering cstr d t m).outcome = .ok) : ¬ trapFires cstr d t m := by
  intro h
  have := (outcome_entering_trap cstr d t m).mpr ⟨hm, h⟩
  rw [hok] at this
  cases this

/-- When `entering` returns normally. -/
theorem outcome_ok_iff (cstr : mid → String) (d : MutexDebugger) (hd : d.TablesOrdered)
    (t : Nat) (m : mid) :
    (entering cstr d t m).outcome = .ok
      ↔ m = 0 ∨ (¬ trapFires cstr d t m
          ∧ (1 < d.bumped t m ∨ ∀ j, j ≠ m → 0 < d.held t j → ¬ d.edge m j)) := by
  by_cases hm : m = 0
  · subst hm; simp [entering_null]
  constructor
  · intro hok
    right
    have ht := no_trap_of_ok cstr d t m hm hok
    refine ⟨ht, ?_⟩
    by_cases hc : 1 < d.bumped t m
    · exact Or.inl hc
    · right
      rcases outcome_entering_first cstr d t m hm ht (not_lt.mp hc) with ⟨_, h⟩ | ⟨bad, h, _⟩
      · exact fun j hj hjc => (h j hj hjc).1
      · rw [hok] at h; cases h
  · rintro (h | ⟨ht, h⟩)
    · exact absurd h hm
    · rcases h with h | h
      · rw [entering_recursive cstr d t m hm ht h]
      · exact entering_ok_of_no_conflict cstr d hd t m ht h

/-- The edges after a call of `entering` that returned normally. -/
theorem edge_entering_ok (cstr : mid → String) (d : MutexDebugger) (hd : d.TablesOrdered)
    (t : Nat) (m : mid) (hok : (entering cstr d t m).outcome = .ok) (x y : mid) :
    (entering cstr d t m).state.edge x y
      ↔ d.edge x y ∨ (m ≠ 0 ∧ d.bumped t m ≤ 1 ∧ y = m ∧ x ≠ m ∧ 0 < d.held t x) := by
  by_cases hm : m = 0
  · subst hm; simp [entering_null]
  by_cases hc : 1 < d.bumped t m
  · have hf := followers_entering_recursive cstr d t m hc
    unfold MutexDebugger.edge
    rw [hf]
    constructor
    · exact fun h => Or.inl h
    · rintro (h | ⟨_, h, _⟩)
      · exact h
      · omega
  · rw [edge_entering_first_ok cstr d hd t m hm (not_lt.mp hc) hok]
    constructor
    · rintro (h | ⟨h1, h2, h3⟩)
      · exact Or.inl h
      · exact Or.inr ⟨hm, not_lt.mp hc, h1, h2, h3⟩
    · rintro (h | ⟨_, _, h1, h2, h3⟩)
      · exact Or.inl h
      · exact Or.inr ⟨h1, h2, h3⟩

/-- The entries of `maxNest` after a call of `entering` that returned normally. -/
theorem maxNest_entering_ok (cstr : mid → String) (d : MutexDebugger) (t : Nat) (m : mid)
    (hok : (entering cstr d t m).outcome = .ok) (j : mid) :
    index 0 (entering cstr d t m).state.maxNest j
      = if m ≠ 0 ∧ 1 < d.bumped t m ∧ j = m
        then max (index 0 d.maxNest j) (d.bumped t m) else index 0 d.maxNest j := by
  have e := maxNest_entering cstr d t m j
  by_cases hm : m = 0
  · subst hm
    rw [e]
    simp
  have ht := no_trap_of_ok cstr d t m hm hok
  by_cases h : 1 < d.bumped t m ∧ j = m
  · obtain ⟨h1, h2⟩ := h
    rw [if_pos (show m ≠ 0 ∧ 1 < d.bumped t m ∧ j = m from ⟨hm, h1, h2⟩)]
    by_cases hlt : index 0 d.maxNest m < d.bumped t m
    · rw [if_pos ⟨hm, ht, h1, h2, hlt⟩] at e
      rw [e, h2]
      omega
    · rw [if_neg (fun hh => hlt hh.2.2.2.2)] at e
      rw [e, h2]
      omega
  · rw [if_neg (fun hh => h ⟨hh.2.2.1, hh.2.2.2.1⟩)] at e
    rw [e, if_neg (fun hh => h ⟨hh.2.1, hh.2.2⟩)]

/-- The hold counts after a call of `entering` that returned normally. -/
theorem held_entering_ok (cstr : mid → String) (d : MutexDebugger) (t : Nat) (m : mid)
    (hok : (entering cstr d t m).outcome = .ok) (t2 : Nat) (j : mid) :
    (entering cstr d t m).state.held t2 j
      = if m ≠ 0 ∧ t2 = t ∧ j = m then d.bumped t m else d.held t2 j := by
  rw [held_entering]
  by_cases hm : m = 0
  · subst hm; simp
  have ht := no_trap_of_ok cstr d t m hm hok
  by_cases h : t2 = t ∧ j = m
  · rw [if_pos ⟨hm, ht, h.1, h.2⟩, if_pos ⟨hm, h.1, h.2⟩]
  · rw [if_neg (fun hh => h ⟨hh.2.2.1, hh.2.2.2⟩), if_neg (fun hh => h ⟨hh.2.1, hh.2.2⟩)]

theorem held_entering_other (cstr : mid → String) (d : MutexDebugger) (t : Nat) (m : mid)
    (t2 : Nat) (h : t2 ≠ t) (j : mid) :
    (entering cstr d t m).state.held t2 j = d.held t2 j := by
  rw [held_entering, if_neg (fun hh => h hh.2.2.1)]

/-- The watched pair is tested on the table of the caller alone: a call by another thread
does not change the test. -/
theorem trapFires_entering_other (cstr : mid → String) (d : MutexDebugger) (t : Nat)
    (m : mid) (t2 : Nat) (h : t2 ≠ t) (m2 : mid) :
    trapFires cstr (entering cstr d t m).state t2 m2 ↔ trapFires cstr d t2 m2 := by
  unfold trapFires
  rw [(entering_a cstr d t m).1, (entering_a cstr d t m).2.2, held_entering_other cstr d t m t2 h]

/-- A call of `entering` whose edges are all recorded already leaves the edges as they
are, whatever its outcome. -/
theorem edge_entering_recorded (cstr : mid → String) (d : MutexDebugger)
    (hd : d.TablesOrdered) (t : Nat) (m : mid)
    (hrec : ∀ j, j ≠ m → 0 < d.held t j → d.edge j m) (x y : mid) :
    (entering cstr d t m).state.edge x y ↔ d.edge x y := by
  constructor
  · intro h
    rcases edge_entering_new cstr d t m x y h with h1 | ⟨_, _, _, h2, h3, c, h4, h5⟩
    · exact h1
    · subst h2
      have := held_of_mem_tableEntered cstr d hd t y x c h4 h3
      exact hrec x h3 (by omega)
  · exact edge_entering cstr d t m x y

/-- Two conditional raises of a high-water mark can be made in either order. -/
theorem max_update_comm (M v1 v2 : Int) (c1 c2 : Prop) [Decidable c1] [Decidable c2] :
    (if c1 then max (if c2 then max M v2 else M) v1
      else (if c2 then max M v2 else M))
      = (if c2 then max (if c1 then max M v1 else M) v2
          else (if c1 then max M v1 else M)) := by
  split_ifs <;> omega

/-- On a well-formed object an identity that is not held reaches at most `1` when its
count is incremented. -/
theorem bumped_le_one (d : MutexDebugger) (hd : d.TablesOrdered) (t : Nat) (m : mid)
    (hc : d.held t m ≤ 0) : d.bumped t m ≤ 1 := by
  have hi := isInt_held d hd t m
  unfold IsInt intMin intMax at hi
  unfold MutexDebugger.bumped wrapInt
  omega

/-- Below `INT_MAX` the increment is the mathematical one. -/
theorem bumped_of_lt (d : MutexDebugger) (t : Nat) (m : mid) (h0 : 0 ≤ d.held t m)
    (h1 : d.held t m < intMax) : d.bumped t m = d.held t m + 1 := by
  unfold intMax at h1
  unfold MutexDebugger.bumped wrapInt
  omega

/-! ### Accesses to the shared tables -/

theorem scanAccesses_guarded (m : mid) (p : Preceeding) (f : List (mid × List mid))
    (x : Access) (h : x ∈ scanAccesses m p f) : x.table = .followers ∧ x.guarded = true := by
  induction p generalizing f with
  | nil => simp [scanAccesses] at h
  | cons e rest ih =>
    obtain ⟨k, c⟩ := e
    unfold scanAccesses at h
    split at h
    · simp only [List.mem_cons] at h
      rcases h with h | h | h
      · subst h; exact ⟨rfl, rfl⟩
      · subst h; exact ⟨rfl, rfl⟩
      · split at h
        · exact absurd h (List.not_mem_nil _)
        · exact ih _ h
    · exact ih _ h

/-- Every access of `entering` to `followers` lies inside the block of the lock. -/
theorem followers_accesses_guarded (cstr : mid → String) (d : MutexDebugger) (t : Nat)
    (m : mid) (x : Access) (h : x ∈ enteringAccesses cstr d t m)
    (hf : x.table = .followers) : x.guarded = true := by
  unfold enteringAccesses at h
  simp only at h
  split_ifs at h
  all_goals first
    | exact absurd h (List.not_mem_nil _)
    | (simp only [List.mem_cons, List.mem_singleton, List.not_mem_nil, or_false, or_self] at h
       subst h
       cases hf)
    | (simp only [List.mem_cons] at h
       rcases h with h | h
       · subst h; rfl
       · exact (scanAccesses_guarded m _ _ x h).2)

/-! ### Tables along a sequence of calls -/

/-- A call of `entering` for a non-null identity that is not stopped at the watched pair
leaves the caller with a table. -/
theorem table_entering (cstr : mid → String) (d : MutexDebugger) (t : Nat) (m : mid)
    (hm : m ≠ 0) (ht : ¬ trapFires cstr d t m) :
    find? (entering cstr d t m).state.us t ≠ none := by
  by_cases hrec : 1 < d.bumped t m
  · apply table_of_held _ t m
    rw [held_entering, if_pos ⟨hm, ht, rfl, rfl⟩]
    omega
  · intro hn
    have hst := entering_first cstr d t m hm ht (not_lt.mp hrec)
    have hus : (entering cstr d t m).state.us
        = assign d.us t (tableEntered cstr d t m) := by
      rw [hst]
      cases scan m (tableEntered cstr d t m) (touch [] d.followers m) with
      | mk f1 o => cases o <;> rfl
    rw [hus, find?_assign, if_pos rfl] at hn
    cases hn

/-- Every state along a sequence of calls on a well-formed object is well formed. -/
theorem tablesOrdered_trace (cstr : mid → String) (cs : List Call) (d : MutexDebugger)
    (hd : d.TablesOrdered) : ∀ s ∈ trace cstr d cs, s.TablesOrdered := by
  induction cs generalizing d with
  | nil =>
    intro s hs
    simp only [trace, List.mem_singleton] at hs
    subst hs
    exact hd
  | cons c cs ih =>
    intro s hs
    simp only [trace, List.mem_cons] at hs
    rcases hs with hs | hs
    · subst hs
      exact hd
    · exact ih _ (tablesOrdered_step cstr d hd c) s hs

/-! ### Many nested acquisitions -/

/-- Re-entering an identity that is held, while the count stays below `INT_MAX`: every call
returns normally, the count grows by one each time and nothing else changes. -/
theorem reenter_many (cstr : mid → String) (t : Nat) (m : mid) (hm : m ≠ 0) (n : Nat) :
    ∀ d : MutexDebugger, d.a ≠ cstr m → 0 < d.held t m → d.held t m + n ≤ intMax →
      (∀ o ∈ outcomes cstr d (List.replicate n (.acquire t m)), o = .ok)
        ∧ (run cstr d (List.replicate n (.acquire t m))).held t m = d.held t m + n
        ∧ (∀ j, j ≠ m →
            (run cstr d (List.replicate n (.acquire t m))).held t j = d.held t j)
        ∧ (run cstr d (List.replicate n (.acquire t m))).followers = d.followers
        ∧ (run cstr d (List.replicate n (.acquire t m))).a = d.a := by
  induction n with
  | zero =>
    intro d _ _ _
    refine ⟨?_, ?_, fun j _ => rfl, rfl, rfl⟩
    · intro o ho
      simp [outcomes] at ho
    · show d.held t m = d.held t m + ((0 : Nat) : Int)
      simp
  | succ n ih =>
    intro d ha hc hle
    have hlt : d.held t m < intMax := by
      have : (0 : Int) ≤ (n : Int) := Int.ofNat_nonneg n
      push_cast at hle
      omega
    have hb : d.bumped t m = d.held t m + 1 := bumped_of_lt d t m (le_of_lt hc) hlt
    have hrec : 1 < d.bumped t m := by rw [hb]; omega
    have hnt : ¬ trapFires cstr d t m := fun h => ha h.1
    have hok : (entering cstr d t m).outcome = .ok := by
      rw [entering_recursive cstr d t m hm hnt hrec]
    have hheld : (entering cstr d t m).state.held t m = d.held t m + 1 := by
      rw [held_entering, if_pos ⟨hm, hnt, rfl, rfl⟩, hb]
    have hother : ∀ j, j ≠ m → (entering cstr d t m).state.held t j = d.held t j := by
      intro j hj
      rw [held_entering, if_neg (fun hh => hj hh.2.2.2)]
    have hf := followers_entering_recursive cstr d t m hrec
    have hcfg := (entering_a cstr d t m).1
    obtain ⟨i1, i2, i3, i4, i5⟩ := ih (entering cstr d t m).state
      (by rw [hcfg]; exact ha) (by rw [hheld]; omega)
      (by rw [hheld]; push_cast at hle; omega)
    have hrun : run cstr d (List.replicate (n + 1) (.acquire t m))
        = run cstr (entering cstr d t m).state (List.replicate n (.acquire t m)) := rfl
    have hout : outcomes cstr d (List.replicate (n + 1) (.acquire t m))
        = (entering cstr d t m).outcome
            :: outcomes cstr (entering cstr d t m).state (List.replicate n (.acquire t m)) :=
      rfl
    rw [hrun, hout]
    refine ⟨?_, ?_, ?_, ?_, ?_⟩
    · intro o ho
      rcases List.mem_cons.mp ho with h | h
      · rw [h, hok]
      · exact i1 o h
    · rw [i2, hheld]
      push_cast
      omega
    · intro j hj
      rw [i3 j hj, hother j hj]
    · rw [i4, hf]
    · rw [i5, hcfg]

/-- Entering one identity again and again in a thread that holds nothing else: every call
returns normally, also the one that wraps the count, and the count is the number of calls
reduced to the range of `int`. -/
theorem nest_many (cstr : mid → String) (t : Nat) (m : mid) (hm : m ≠ 0) (n : Nat) :
    ∀ d : MutexDebugger, d.TablesOrdered → d.a ≠ cstr m → (∀ j, j ≠ m → d.held t j ≤ 0) →
      (∀ o ∈ outcomes cstr d (List.replicate n (.acquire t m)), o = .ok)
        ∧ (run cstr d (List.replicate n (.acquire t m))).held t m = wrapInt (d.held t m + n)
        ∧ (∀ j, j ≠ m →
            (run cstr d (List.replicate n (.acquire t m))).held t j = d.held t j)
        ∧ (run cstr d (List.replicate n (.acquire t m))).a = d.a := by
  induction n with
  | zero =>
    intro d hd _ _
    refine ⟨?_, ?_, fun j _ => rfl, rfl⟩
    · intro o ho
      simp [outcomes] at ho
    · show d.held t m = wrapInt (d.held t m + ((0 : Nat) : Int))
      rw [Nat.cast_zero, add_zero, wrapInt_of_isInt _ (isInt_held d hd t m)]
  | succ n ih =>
    intro d hd ha hnone
    have hnt : ¬ trapFires cstr d t m := fun h => ha h.1
    have hok : (entering cstr d t m).outcome = .ok :=
      entering_ok_of_no_conflict cstr d hd t m hnt
        (fun j hj hjc => absurd hjc (not_lt.mpr (hnone j hj)))
    have hheld : (entering cstr d t m).state.held t m = wrapInt (d.held t m + 1) := by
      rw [held_entering, if_pos ⟨hm, hnt, rfl, rfl⟩]
      rfl
    have hother : ∀ j, j ≠ m → (entering cstr d t m).state.held t j = d.held t j := by
      intro j hj
      rw [held_entering, if_neg (fun hh => hj hh.2.2.2)]
    have hcfg := (entering_a cstr d t m).1
    obtain ⟨i1, i2, i3, i5⟩ := ih (entering cstr d t m).state
      (tablesOrdered_entering cstr d hd t m) (by rw [hcfg]; exact ha)
      (fun j hj => by rw [hother j hj]; exact hnone j hj)
    have hrun : run cstr d (List.replicate (n + 1) (.acquire t m))
        = run cstr (entering cstr d t m).state (List.replicate n (.acquire t m)) := rfl
    have hout : outcomes cstr d (List.replicate (n + 1) (.acquire t m))
        = (entering cstr d t m).outcome
            :: outcomes cstr (entering cstr d t m).state (List.replicate n (.acquire t m)) :=
      rfl
    rw [hrun, hout]
    refine ⟨?_, ?_, ?_, ?_⟩
    · intro o ho
      rcases List.mem_cons.mp ho with h | h
      · rw [h, hok]
      · exact i1 o h
    · rw [i2, hheld, wrapInt_add]
      congr 1
      push_cast
      omega
    · intro j hj
      rw [i3 j hj, hother j hj]
    · rw [i5, hcfg]

/-- At hold count `INT_MAX` the increment wraps: `entering` takes the path of a first
acquisition, and when the caller holds a follower `b` of `m`, and `m` has no other
follower, it fails with the order violation naming `b`, after inserting `b → m`. -/
theorem entering_at_intMax (cstr : mid → String) (d : MutexDebugger)
    (t : Nat) (m b : mid) (hm : m ≠ 0) (ha : d.a ≠ cstr m) (hmax : d.held t m = intMax)
    (hb : 0 < d.held t b) (hne : b ≠ m) (he : d.edge m b) (honly : ∀ j, d.edge m j → j = b) :
    (entering cstr d t m).outcome = .orderViolation b
      ∧ (entering cstr d t m).state.edge b m
      ∧ (entering cstr d t m).state.held t m = intMin := by
  have hnt : ¬ trapFires cstr d t m := fun h => ha h.1
  have hbump : d.bumped t m = intMin := by
    unfold MutexDebugger.bumped
    rw [hmax]
    decide
  have hfirst : d.bumped t m ≤ 1 := by rw [hbump]; decide
  have hheld : (entering cstr d t m).state.held t m = intMin := by
    rw [held_entering, if_pos ⟨hm, hnt, rfl, rfl⟩]
    exact hbump
  rcases outcome_entering_first cstr d t m hm hnt hfirst with ⟨_, h⟩ | ⟨bad, h1, _, h3, h4, _⟩
  · exact absurd he (h b hne hb).1
  · have hbad := honly bad h3
    subst hbad
    exact ⟨h1, h4, hheld⟩

/-- At a negative hold count, in a thread that holds nothing else, `entering` returns
normally and the `leaving` that follows fails on the count. -/
theorem round_trip_at_negative (cstr : mid → String) (d : MutexDebugger)
    (hd : d.TablesOrdered) (t : Nat) (m : mid) (hm : m ≠ 0) (ha : d.a ≠ cstr m)
    (hneg : d.held t m < 0) (hnone : ∀ j, j ≠ m → d.held t j ≤ 0) :
    (entering cstr d t m).outcome = .ok
      ∧ (leaving (entering cstr d t m).state t m).outcome = .unbalanced (d.held t m) := by
  have hnt : ¬ trapFires cstr d t m := fun h => ha h.1
  have hok : (entering cstr d t m).outcome = .ok :=
    entering_ok_of_no_conflict cstr d hd t m hnt
      (fun j hj hjc => absurd hjc (not_lt.mpr (hnone j hj)))
  have hi := isInt_held d hd t m
  have hheld : (entering cstr d t m).state.held t m = wrapInt (d.held t m + 1) := by
    rw [held_entering, if_pos ⟨hm, hnt, rfl, rfl⟩]
    rfl
  have hdrop : (entering cstr d t m).state.dropped t m = d.held t m := by
    unfold MutexDebugger.dropped
    rw [hheld]
    unfold IsInt intMin intMax at hi
    unfold wrapInt
    omega
  have htab := table_entering cstr d t m hm hnt
  refine ⟨hok, ?_⟩
  rw [outcome_leaving _ t m hm, if_neg htab, hdrop, if_pos hneg]

/-- The first increment of a count gives `1`. -/
theorem bumped_of_zero (d : MutexDebugger) (t : Nat) (m : mid) (h : d.held t m = 0) :
    d.bumped t m = 1 := by
  unfold MutexDebugger.bumped
  rw [h]
  decide

/-- Above `INT_MIN` the decrement is the mathematical one. -/
theorem dropped_of_gt (d : MutexDebugger) (t : Nat) (m : mid) (h0 : intMin < d.held t m)
    (h1 : d.held t m ≤ intMax) : d.dropped t m = d.held t m - 1 := by
  unfold intMin at h0
  unfold intMax at h1
  unfold MutexDebugger.dropped wrapInt
  omega

/-- Calls of `entering` for one identity that all return normally raise the count by their
number, as long as it stays within `INT_MAX`. -/
theorem held_replicate_ok (cstr : mid → String) (t : Nat) (m : mid) (hm : m ≠ 0) (n : Nat) :
    ∀ d : MutexDebugger, 0 ≤ d.held t m → d.held t m + n ≤ intMax →
      (∀ o ∈ outcomes cstr d (List.replicate n (.acquire t m)), o = .ok) →
      (run cstr d (List.replicate n (.acquire t m))).held t m = d.held t m + n := by
  induction n with
  | zero =>
    intro d _ _ _
    show d.held t m = d.held t m + ((0 : Nat) : Int)
    simp
  | succ n ih =>
    intro d h0 hle hok
    have hout : outcomes cstr d (List.replicate (n + 1) (.acquire t m))
        = (entering cstr d t m).outcome
            :: outcomes cstr (entering cstr d t m).state (List.replicate n (.acquire t m)) :=
      rfl
    rw [hout] at hok
    have hlt : d.held t m < intMax := by
      have : (0 : Int) ≤ (n : Int) := Int.ofNat_nonneg n
      push_cast at hle
      omega
    have hnt := no_trap_of_ok cstr d t m hm (hok _ (List.mem_cons_self _ _))
    have hheld : (entering cstr d t m).state.held t m = d.held t m + 1 := by
      rw [held_entering, if_pos ⟨hm, hnt, rfl, rfl⟩, bumped_of_lt d t m h0 hlt]
    have i := ih (entering cstr d t m).state (by rw [hheld]; omega)
      (by rw [hheld]; push_cast at hle; omega)
      (fun o ho => hok o (List.mem_cons_of_mem _ ho))
    have hrun : run cstr d (List.replicate (n + 1) (.acquire t m))
        = run cstr (entering cstr d t m).state (List.replicate n (.acquire t m)) := rfl
    rw [hrun, i, hheld]
    push_cast
    omega

/-- The state `deepNested` is reached by calls that all return normally; in it thread `1`
holds `A` `INT_MAX` times and `B` once, and `A → B` is the only edge. -/
theorem deepNested_reached :
    (∀ o ∈ outcomes sampleMem fresh [Call.acquire 1 10, Call.acquire 1 20], o = Outcome.ok)
      ∧ (∀ o ∈ outcomes sampleMem nestedAB (List.replicate 2147483646 (Call.acquire 1 10)),
          o = Outcome.ok)
      ∧ deepNested.TablesOrdered
      ∧ deepNested.held 1 10 = intMax
      ∧ deepNested.held 1 20 = 1
      ∧ deepNested.followers = [(10, [20]), (20, [])]
      ∧ deepNested.a = "" := by
  obtain ⟨h1, h2, h3, h4, h5⟩ := reenter_many sampleMem 1 10 (by decide) 2147483646 nestedAB
    (by decide) (by decide) (by decide)
  refine ⟨by decide, h1, ?_, ?_, ?_, ?_, ?_⟩
  · exact tablesOrdered_run sampleMem nestedAB
      (tablesOrdered_run sampleMem fresh (tablesOrdered_init "" "" 999) _) _
  · show (run sampleMem nestedAB (List.replicate 2147483646 (Call.acquire 1 10))).held 1 10
      = intMax
    rw [h2]
    decide
  · show (run sampleMem nestedAB (List.replicate 2147483646 (Call.acquire 1 10))).held 1 20 = 1
    rw [h3 20 (by decide)]
    decide
  · show (run sampleMem nestedAB (List.replicate 2147483646 (Call.acquire 1 10))).followers = _
    rw [h4]
    decide
  · show (run sampleMem nestedAB (List.replicate 2147483646 (Call.acquire 1 10))).a = _
    rw [h5]
    decide

/-- What `entering` of `A` does in the state `deepNested`: the increment wraps, the call
takes the path of a first acquisition and fails with the order violation naming `B`, after
inserting the edge `B → A`. -/
theorem deepNested_entering :
    ¬ trapFires sampleMem deepNested 1 10
      ∧ (entering sampleMem deepNested 1 10).outcome = Outcome.orderViolation 20
      ∧ (entering sampleMem deepNested 1 10).state.held 1 10 = intMin
      ∧ ¬ deepNested.edge 20 10
      ∧ (entering sampleMem deepNested 1 10).state.edge 20 10 := by
  obtain ⟨_, _, _, hA, hB, hf, ha⟩ := deepNested_reached
  have hna : deepNested.a ≠ sampleMem 10 := by rw [ha]; decide
  have he : deepNested.edge 10 20 := by
    show hasEdge deepNested.followers 10 20
    rw [hf]
    decide
  have honly : ∀ j, deepNested.edge 10 j → j = 20 := by
    intro j hj
    have hj2 : hasEdge deepNested.followers 10 j := hj
    rw [hf] at hj2
    simpa [hasEdge, index, find?] using hj2
  obtain ⟨h1, h2, h3⟩ := entering_at_intMax sampleMem deepNested 1 10 20 (by decide) hna hA
    (by rw [hB]; decide) (by decide) he honly
  refine ⟨fun h => hna h.1, h1, h3, ?_, h2⟩
  show ¬ hasEdge deepNested.followers 20 10
  rw [hf]
  decide

/-- The state `wrappedNest` is reached by calls that all return normally; in it the count
of thread `1` for `A` has wrapped to `INT_MIN`, and the thread holds nothing else. -/
theorem wrappedNest_reached :
    (∀ o ∈ outcomes sampleMem fresh (List.replicate 2147483648 (Call.acquire 1 10)),
        o = Outcome.ok)
      ∧ wrappedNest.TablesOrdered
      ∧ wrappedNest.held 1 10 = intMin
      ∧ (∀ j, j ≠ 10 → wrappedNest.held 1 j ≤ 0)
      ∧ wrappedNest.a = "" := by
  obtain ⟨h1, h2, h3, h4⟩ := nest_many sampleMem 1 10 (by decide) 2147483648 fresh
    (tablesOrdered_init "" "" 999) (by decide)
    (fun j _ => le_of_eq (held_init "" "" 999 1 j))
  refine ⟨h1, tablesOrdered_run sampleMem fresh (tablesOrdered_init "" "" 999) _, ?_, ?_, ?_⟩
  · show (run sampleMem fresh (List.replicate 2147483648 (Call.acquire 1 10))).held 1 10
      = intMin
    rw [h2]
    decide
  · intro j hj
    show (run sampleMem fresh (List.replicate 2147483648 (Call.acquire 1 10))).held 1 j ≤ 0
    rw [h3 j hj]
    exact le_of_eq (held_init "" "" 999 1 j)
  · show (run sampleMem fresh (List.replicate 2147483648 (Call.acquire 1 10))).a = _
    rw [h4]
    decide

/-! ### Many releases -/

theorem run_cons (cstr : mid → String) (d : MutexDebugger) (c : Call) (cs : List Call) :
    run cstr d (c :: cs) = run cstr (step cstr d c).state cs := rfl

theorem wrapInt_sub (x y : Int) : wrapInt (wrapInt x - y) = wrapInt (x - y) := by
  unfold wrapInt
  omega

/-- A thread that has a table keeps it through `leaving`. -/
theorem table_leaving (d : MutexDebugger) (t : Nat) (m : mid) (h : find? d.us t ≠ none) :
    find? (leaving d t m).state.us t ≠ none := by
  by_cases hm : m = 0
  · subst hm
    rw [leaving_null]
    exact h
  cases hp : find? d.us t with
  | none => exact absurd hp h
  | some p =>
    rw [leaving_table d t m hm p hp]
    simp only
    rw [find?_assign, if_pos rfl]
    simp

/-- Calls of `leaving` for one identity, whether they fail or not, lower the count by their
number in `int` arithmetic and leave `maxNest` as it was. -/
theorem leave_many (cstr : mid → String) (t : Nat) (m : mid) (hm : m ≠ 0) (n : Nat) :
    ∀ d : MutexDebugger, d.TablesOrdered → find? d.us t ≠ none →
      (run cstr d (List.replicate n (.release t m))).held t m = wrapInt (d.held t m - n)
        ∧ (run cstr d (List.replicate n (.release t m))).maxNest = d.maxNest := by
  induction n with
  | zero =>
    intro d hd _
    refine ⟨?_, rfl⟩
    show d.held t m = wrapInt (d.held t m - ((0 : Nat) : Int))
    rw [Nat.cast_zero, sub_zero, wrapInt_of_isInt _ (isInt_held d hd t m)]
  | succ n ih =>
    intro d hd htab
    have hheld : (leaving d t m).state.held t m = wrapInt (d.held t m - 1) := by
      rw [held_leaving, if_pos ⟨hm, htab, rfl, rfl⟩]
      rfl
    obtain ⟨i1, i2⟩ := ih (leaving d t m).state (tablesOrdered_leaving d hd t m)
      (table_leaving d t m htab)
    have hrun : run cstr d (List.replicate (n + 1) (.release t m))
        = run cstr (leaving d t m).state (List.replicate n (.release t m)) := rfl
    rw [hrun]
    refine ⟨?_, ?_⟩
    · rw [i1, hheld, wrapInt_sub]
      congr 1
      push_cast
      omega
    · rw [i2, (leaving_frame d t m).2.1]

/-- The bound of hold counts by `maxNest` needs the calls to return normally.  Thread `1`
enters `A` once and then calls `leaving` for it `2^31 + 2` times; all but the first and the
last of these calls fail.  The count of `A` passes `INT_MIN` and ends at `INT_MAX`, while
`maxNest` has no entry for `A`. -/
theorem maxNest_bound_needs_normal_returns :
    (run sampleMem fresh
        (Call.acquire 1 10 :: List.replicate 2147483650 (Call.release 1 10))).held 1 10
        = 2147483647
      ∧ index 0 (run sampleMem fresh
          (Call.acquire 1 10 :: List.replicate 2147483650 (Call.release 1 10))).maxNest 10 = 0
      ∧ ¬ (∀ s ∈ trace sampleMem fresh
            (Call.acquire 1 10 :: List.replicate 2147483650 (Call.release 1 10)), ∀ t,
          s.held t 10 ≤ max 1 (index 0 (run sampleMem fresh
            (Call.acquire 1 10 :: List.replicate 2147483650 (Call.release 1 10))).maxNest 10)) := by
  have hrun : run sampleMem fresh
      (Call.acquire 1 10 :: List.replicate 2147483650 (Call.release 1 10))
      = run sampleMem (step sampleMem fresh (Call.acquire 1 10)).state
          (List.replicate 2147483650 (Call.release 1 10)) := run_cons sampleMem fresh _ _
  obtain ⟨h1, h2⟩ := leave_many sampleMem 1 10 (by decide) 2147483650
    (step sampleMem fresh (Call.acquire 1 10)).state
    (tablesOrdered_step sampleMem fresh (tablesOrdered_init "" "" 999) _) (by decide)
  have hheld : (run sampleMem fresh
      (Call.acquire 1 10 :: List.replicate 2147483650 (Call.release 1 10))).held 1 10
      = 2147483647 := by
    rw [hrun, h1]
    decide
  have hmax : index 0 (run sampleMem fresh
      (Call.acquire 1 10 :: List.replicate 2147483650 (Call.release 1 10))).maxNest 10 = 0 := by
    rw [hrun, h2]
    decide
  refine ⟨hheld, hmax, ?_⟩
  intro h
  have h3 := h _ (run_mem_trace sampleMem fresh _) 1
  rw [hheld, hmax] at h3
  exact absurd h3 (by decide)

/-! ## Properties of the hooks -/

/-- C1 (evaluation of the code where the claim fails): three threads nest `A` then `B`,
`B` then `C` and `C` then `A`; every call returns normally, and `followers` then holds the
cycle `A → B → C → A`.  The loop of `entering` only looks for the opposite edge. -/
theorem three_cycle_undetected :
    outcomes sampleMem fresh threeCycleCalls = List.replicate 10 Outcome.ok
      ∧ (run sampleMem fresh threeCycleCalls).edge 10 20
      ∧ (run sampleMem fresh threeCycleCalls).edge 20 30
      ∧ (run sampleMem fresh threeCycleCalls).edge 30 10 := by
  decide

/-- C2 (the claim fails when the watched pair stops the last call): the watched pair is
`A`, `B`, the mutex `B` being identified by the buffer of `b`.  Thread `1` nests `A` then
`B` and releases both, thread `2` then enters `B`; these five calls return normally.  The
`entering` of `A` by thread `2` then fails at the watched pair, which is tested first, and
not with an order violation. -/
theorem watched_pair_preempts_order_violation :
    outcomes sampleMem (MutexDebugger.init "A" "B" 20)
        [.acquire 1 10, .acquire 1 20, .release 1 20, .release 1 10,
          .acquire 2 20, .acquire 2 10]
      = [Outcome.ok, Outcome.ok, Outcome.ok, Outcome.ok, Outcome.ok, Outcome.watchedPair] := by
  decide

/-- C2 (amended): on a freshly constructed object, whatever its watched pair, thread `t1`
nests `A` then `B` and releases both, these four calls returning normally; thread `t2` then
enters `B` and `A`.  The fifth call returns normally and the sixth fails: at the watched
pair when that test stops it, and otherwise with the order violation that names `B`.
The test stops it exactly when `a` is the name of `A` and the buffer of `b` is the identity
`B`.  More generally, on an object with well-formed tables, wherever `A → B` is an edge and
the caller holds `B` but not `A`, `entering` of `A` fails: at the watched pair if that stops
the call, and otherwise with an order violation naming an identity that `A` precedes. -/
theorem order_consistency_two_threads (cstr : mid → String) (a b : String) (bp A B : mid)
    (t1 t2 : Nat) (hA : A ≠ 0) (hB : B ≠ 0) (hAB : A ≠ B) (ht : t1 ≠ t2)
    (hok : ∀ o ∈ outcomes cstr (MutexDebugger.init a b bp)
        [.acquire t1 A, .acquire t1 B, .release t1 B, .release t1 A], o = .ok) :
    outcomes cstr (MutexDebugger.init a b bp)
        [.acquire t1 A, .acquire t1 B, .release t1 B, .release t1 A,
          .acquire t2 B, .acquire t2 A]
      = [.ok, .ok, .ok, .ok, .ok,
          if trapFires cstr
              (run cstr (MutexDebugger.init a b bp)
                [.acquire t1 A, .acquire t1 B, .release t1 B, .release t1 A, .acquire t2 B])
              t2 A
          then .watchedPair else .orderViolation B]
    ∧ (trapFires cstr
          (run cstr (MutexDebugger.init a b bp)
            [.acquire t1 A, .acquire t1 B, .release t1 B, .release t1 A, .acquire t2 B])
          t2 A
        ↔ a = cstr A ∧ bp = B)
    ∧ ∀ (d : MutexDebugger) (t : Nat), d.TablesOrdered → d.edge A B → 0 < d.held t B →
        d.held t A ≤ 0 →
        (trapFires cstr d t A → (entering cstr d t A).outcome = .watchedPair)
        ∧ (¬ trapFires cstr d t A →
            ∃ bad, (entering cstr d t A).outcome = .orderViolation bad ∧ d.edge A bad) := by
  rw [← and_assoc]
  constructor
  · have ht21 : t2 ≠ t1 := fun h => ht h.symm
    have hBA : ¬ B = A := fun h => hAB h.symm
    obtain ⟨d0, hd0⟩ : ∃ d0, d0 = MutexDebugger.init a b bp := ⟨_, rfl⟩
    rw [← hd0] at hok ⊢
    have o0 : d0.TablesOrdered := by rw [hd0]; exact tablesOrdered_init a b bp
    have c0 : ∀ t j, d0.held t j = 0 := by rw [hd0]; exact held_init a b bp
    obtain ⟨d1, hd1⟩ : ∃ d1, d1 = (entering cstr d0 t1 A).state := ⟨_, rfl⟩
    obtain ⟨d2, hd2⟩ : ∃ d2, d2 = (entering cstr d1 t1 B).state := ⟨_, rfl⟩
    obtain ⟨d3, hd3⟩ : ∃ d3, d3 = (leaving d2 t1 B).state := ⟨_, rfl⟩
    obtain ⟨d4, hd4⟩ : ∃ d4, d4 = (leaving d3 t1 A).state := ⟨_, rfl⟩
    obtain ⟨d5, hd5⟩ : ∃ d5, d5 = (entering cstr d4 t2 B).state := ⟨_, rfl⟩
    have hall : outcomes cstr d0 [.acquire t1 A, .acquire t1 B, .release t1 B, .release t1 A]
        = [(entering cstr d0 t1 A).outcome, (entering cstr d1 t1 B).outcome,
            (leaving d2 t1 B).outcome, (leaving d3 t1 A).outcome] := by
      simp only [hd3, hd2, hd1, outcomes, step]
    rw [hall] at hok
    -- the four calls of thread t1 return normally
    have e1 : (entering cstr d0 t1 A).outcome = .ok := hok _ (by simp)
    have e2 : (entering cstr d1 t1 B).outcome = .ok := hok _ (by simp)
    have e3 : (leaving d2 t1 B).outcome = .ok := hok _ (by simp)
    have e4 : (leaving d3 t1 A).outcome = .ok := hok _ (by simp)
    have n1 := no_trap_of_ok cstr d0 t1 A hA e1
    have n2 := no_trap_of_ok cstr d1 t1 B hB e2
    have o1 : d1.TablesOrdered := by rw [hd1]; exact tablesOrdered_entering cstr d0 o0 t1 A
    have o2 : d2.TablesOrdered := by rw [hd2]; exact tablesOrdered_entering cstr d1 o1 t1 B
    have o3 : d3.TablesOrdered := by rw [hd3]; exact tablesOrdered_leaving d2 o2 t1 B
    have o4 : d4.TablesOrdered := by rw [hd4]; exact tablesOrdered_leaving d3 o3 t1 A
    have o5 : d5.TablesOrdered := by rw [hd5]; exact tablesOrdered_entering cstr d4 o4 t2 B
    -- they record the edge A → B
    have c1A : d1.held t1 A = 1 := by
      rw [hd1, held_entering, if_pos ⟨hA, n1, rfl, rfl⟩]
      exact bumped_of_zero d0 t1 A (c0 _ _)
    have c1B : d1.held t1 B = 0 := by
      rw [hd1, held_entering, if_neg (fun hh => hBA hh.2.2.2)]
      exact c0 _ _
    have g2 : d2.edge A B := by
      rcases outcome_entering_first cstr d1 t1 B hB n2
          (le_of_eq (bumped_of_zero d1 t1 B c1B)) with ⟨_, h⟩ | ⟨bad, h, _⟩
      · rw [hd2]
        exact (h A hAB (by rw [c1A]; decide)).2
      · rw [e2] at h; cases h
    have g4 : d4.edge A B := by
      show hasEdge d4.followers A B
      rw [hd4, (leaving_frame d3 t1 A).1, hd3, (leaving_frame d2 t1 B).1]
      exact g2
    -- thread t2 holds nothing so far
    have c4 : ∀ j, d4.held t2 j = 0 := by
      intro j
      rw [hd4, held_leaving, if_neg (fun hh => ht21 hh.2.2.1), hd3, held_leaving,
        if_neg (fun hh => ht21 hh.2.2.1), hd2, held_entering_other cstr d1 t1 B t2 ht21, hd1,
        held_entering_other cstr d0 t1 A t2 ht21]
      exact c0 _ _
    -- fifth call: thread t2 enters B
    have n5 : ¬ trapFires cstr d4 t2 B := fun h => h.2 (c4 _)
    have e5 : (entering cstr d4 t2 B).outcome = .ok :=
      entering_ok_of_no_conflict cstr d4 o4 t2 B n5
        (fun j _ hj => by rw [c4] at hj; exact absurd hj (by decide))
    have c5 : ∀ j, d5.held t2 j = if j = B then 1 else 0 := by
      intro j
      rw [hd5, held_entering]
      by_cases h : j = B
      · rw [if_pos ⟨hB, n5, rfl, h⟩, if_pos h]
        exact bumped_of_zero d4 t2 B (c4 _)
      · rw [if_neg (fun hh => h hh.2.2.2), if_neg h]
        exact c4 _
    have c5A : d5.held t2 A = 0 := by rw [c5, if_neg hAB]
    have c5B : d5.held t2 B = 1 := by rw [c5, if_pos rfl]
    have g5 : d5.edge A B := by rw [hd5]; exact edge_entering cstr d4 t2 B A B g4
    -- sixth call: thread t2 enters A
    have e6 : (entering cstr d5 t2 A).outcome
        = if trapFires cstr d5 t2 A then .watchedPair else .orderViolation B := by
      by_cases n6 : trapFires cstr d5 t2 A
      · rw [if_pos n6]
        exact (outcome_entering_trap cstr d5 t2 A).mpr ⟨hA, n6⟩
      · rw [if_neg n6]
        have hb6 : d5.bumped t2 A ≤ 1 := le_of_eq (bumped_of_zero d5 t2 A c5A)
        rcases outcome_entering_first cstr d5 t2 A hA n6 hb6 with ⟨_, h⟩ | ⟨bad, h, _⟩
        · exact absurd g5 (h B hBA (by rw [c5B]; decide)).1
        · obtain ⟨_, h2, _⟩ := order_violation_held cstr d5 o5 t2 A hA n6 hb6 bad h
          rw [c5] at h2
          by_cases hb : bad = B
          · rw [h, hb]
          · rw [if_neg hb] at h2
            exact absurd h2 (by decide)
    have a5 : d5.a = a := by
      rw [hd5, (entering_a cstr d4 t2 B).1, hd4, (leaving_frame d3 t1 A).2.2.1, hd3,
        (leaving_frame d2 t1 B).2.2.1, hd2, (entering_a cstr d1 t1 B).1, hd1,
        (entering_a cstr d0 t1 A).1, hd0]
      rfl
    have b5 : d5.b_c_str = bp := by
      rw [hd5, (entering_a cstr d4 t2 B).2.2, hd4, (leaving_frame d3 t1 A).2.2.2.2, hd3,
        (leaving_frame d2 t1 B).2.2.2.2, hd2, (entering_a cstr d1 t1 B).2.2, hd1,
        (entering_a cstr d0 t1 A).2.2, hd0]
      rfl
    have htr : trapFires cstr d5 t2 A ↔ a = cstr A ∧ bp = B := by
      unfold trapFires
      rw [a5, b5, c5]
      by_cases hb : bp = B <;> simp [hb]
    subst hd5 hd4 hd3 hd2 hd1
    refine ⟨?_, htr⟩
    simp only [outcomes, run, step, e1, e2, e3, e4, e5, e6]
  · intro d t hd hE hBh hAh
    refine ⟨fun h => (outcome_entering_trap cstr d t A).mpr ⟨hA, h⟩, ?_⟩
    intro hn
    have hne : B ≠ A := by
      intro h
      rw [h] at hBh
      omega
    rcases outcome_entering_first cstr d t A hA hn (bumped_le_one d hd t A hAh) with
      ⟨_, h⟩ | ⟨bad, h, _, h3, _⟩
    · exact absurd hE (h B hne hBh).1
    · exact ⟨bad, h, h3⟩

/-- Witness of `order_consistency_two_threads`: threads `1` and `2`, identities at the
addresses `10` and `20`, no watched pair; the state before the last call also instantiates
the general part. -/
theorem order_consistency_two_threads_witness :
    ((10 : mid) ≠ 0 ∧ (20 : mid) ≠ 0 ∧ (10 : mid) ≠ 20 ∧ (1 : Nat) ≠ 2
      ∧ ∀ o ∈ outcomes sampleMem (MutexDebugger.init "" "" 999)
          [.acquire 1 10, .acquire 1 20, .release 1 20, .release 1 10], o = Outcome.ok)
      ∧ outcomes sampleMem (MutexDebugger.init "" "" 999)
          [.acquire 1 10, .acquire 1 20, .release 1 20, .release 1 10,
            .acquire 2 20, .acquire 2 10]
        = [.ok, .ok, .ok, .ok, .ok, .orderViolation 20]
      ∧ (reversedNesting.TablesOrdered ∧ reversedNesting.edge 10 20
          ∧ 0 < reversedNesting.held 2 20 ∧ reversedNesting.held 2 10 ≤ 0
          ∧ ¬ trapFires sampleMem reversedNesting 2 10)
      ∧ ∃ bad, (entering sampleMem reversedNesting 2 10).outcome = .orderViolation bad
          ∧ reversedNesting.edge 10 bad :=
  have h := order_consistency_two_threads sampleMem "" "" 999 10 20 1 2
    (by decide) (by decide) (by decide) (by decide) (by decide)
  ⟨⟨by decide, by decide, by decide, by decide, by decide⟩, h.1.trans (by decide),
    ⟨tablesOrdered_run sampleMem fresh (tablesOrdered_init "" "" 999) _, by decide, by decide,
      by decide, by decide⟩,
    (h.2.2 reversedNesting 2 (tablesOrdered_run sampleMem fresh (tablesOrdered_init "" "" 999) _)
      (by decide) (by decide) (by decide)).2 (by decide)⟩

/-- C3: starting from a freshly constructed object, whatever its watched pair, a sequence
of calls by any threads, in any interleaving, that only enters and leaves `A` and `B` and
never enters `A` in a thread that holds `B` contains no call that fails with an order
violation. -/
theorem no_false_positive (cstr : mid → String) (a b : String) (bp A B : mid)
    (cs : List Call) (h : onlyAThenB cstr A B (MutexDebugger.init a b bp) cs = true) :
    ∀ o ∈ outcomes cstr (MutexDebugger.init a b bp) cs, ∀ bad, o ≠ .orderViolation bad :=
  no_order_violation_from cstr A B cs _ (nestInv_init A B a b bp) h

/-- Witness of `no_false_positive`: two threads nest `A` then `B`, interleaved, one of
them re-entrantly. -/
theorem no_false_positive_witness :
    onlyAThenB sampleMem 10 20 (MutexDebugger.init "" "" 999)
        [.acquire 1 10, .acquire 2 10, .acquire 1 20, .acquire 1 20, .acquire 2 20,
          .release 1 20, .release 2 20, .release 2 10] = true
      ∧ ∀ o ∈ outcomes sampleMem (MutexDebugger.init "" "" 999)
          [.acquire 1 10, .acquire 2 10, .acquire 1 20, .acquire 1 20, .acquire 2 20,
            .release 1 20, .release 2 20, .release 2 10],
          ∀ bad, o ≠ .orderViolation bad :=
  ⟨by decide, no_false_positive sampleMem "" "" 999 10 20 _ (by decide)⟩

/-- C4 (evaluation of the code where the claim fails): with `a` and `b` set to the names
of `M1` and `M2`, a thread that holds `M2` and enters `M1` returns normally.  The lookup
`preceeding[b.c_str()]` is made under the address of the buffer of `b`, not under the
identity of `M2`, and only inserts a zero there. -/
theorem watched_pair_not_trapped :
    watchedM1M2.a = sampleMem 100 ∧ watchedM1M2.b = sampleMem 200
      ∧ (run sampleMem watchedM1M2 [.acquire 1 200]).held 1 200 = 1
      ∧ (entering sampleMem (run sampleMem watchedM1M2 [.acquire 1 200]) 1 100).outcome
          = Outcome.ok
      ∧ (entering sampleMem (run sampleMem watchedM1M2 [.acquire 1 200]) 1 100).state.table 1
          = [(100, 1), (200, 1), (300, 0)] := by
  decide

/-- C5 (evaluation of the code where the claim fails): a thread that never entered
anything has no table; its hold count for `A` reads `0`, and `leaving` dereferences the
null table pointer instead of reaching the check of the count. -/
theorem leaving_without_table :
    fresh.held 1 10 = 0 ∧ leaving fresh 1 10 = ⟨Outcome.nullDeref, fresh⟩ := by
  decide

/-- The content of C5 for a thread that has a table, on an object with well-formed tables
and at a hold count above `INT_MIN`: `leaving` fails, with the count check, exactly when
the hold count is not positive, and otherwise lowers the count by one. -/
theorem leaving_with_table (d : MutexDebugger) (hd : d.TablesOrdered) (t : Nat) (m : mid)
    (hm : m ≠ 0) (ht : find? d.us t ≠ none) (hmin : intMin < d.held t m) :
    ((leaving d t m).outcome = .unbalanced (d.held t m - 1) ↔ d.held t m ≤ 0)
      ∧ ((leaving d t m).outcome ≠ .ok ↔ d.held t m ≤ 0)
      ∧ (0 < d.held t m →
          (leaving d t m).outcome = .ok ∧ (leaving d t m).state.held t m = d.held t m - 1) := by
  have hi := isInt_held d hd t m
  unfold IsInt at hi
  have hdrop := dropped_of_gt d t m hmin hi.2
  have ho := outcome_leaving d t m hm
  rw [if_neg ht, hdrop] at ho
  have hh := held_leaving d t m t m
  rw [if_pos ⟨hm, ht, rfl, rfl⟩, hdrop] at hh
  by_cases hc : d.held t m ≤ 0
  · have hlt : d.held t m - 1 < 0 := by omega
    rw [if_pos hlt] at ho
    refine ⟨by simp [ho, hc], by simp [ho, hc], fun h => by omega⟩
  · have hlt : ¬ d.held t m - 1 < 0 := by omega
    rw [if_neg hlt] at ho
    refine ⟨by simp [ho, hc], by simp [ho, hc], fun _ => ⟨ho, hh⟩⟩

/-- C6 (the claim fails once the count has wrapped): thread `1` enters `A` `2^31` times in
a row on a fresh object; every call returns normally and the count of `A`, an `int`, has
wrapped to `INT_MIN`.  The next `entering` of `A` returns normally and the `leaving` that
follows fails on the count. -/
theorem round_trip_fails_after_wrap :
    (∀ o ∈ outcomes sampleMem fresh (List.replicate 2147483648 (Call.acquire 1 10)),
        o = Outcome.ok)
      ∧ wrappedNest.held 1 10 = -2147483648
      ∧ (entering sampleMem wrappedNest 1 10).outcome = Outcome.ok
      ∧ (leaving (entering sampleMem wrappedNest 1 10).state 1 10).outcome
          = Outcome.unbalanced (-2147483648) := by
  obtain ⟨h1, hd, h2, h3, h4⟩ := wrappedNest_reached
  obtain ⟨h5, h6⟩ := round_trip_at_negative sampleMem wrappedNest hd 1 10 (by decide)
    (by rw [h4]; decide) (by rw [h2]; decide) h3
  rw [h2] at h6
  exact ⟨h1, h2, h5, h6⟩

/-- C6 (amended): on an object with well-formed tables, when `entering` of a non-null
identity returns normally and the hold count of the caller for it was not negative, the
`leaving` that follows by the same thread returns normally too and every hold count of
every thread is what it was before `entering`.  When the hold count was negative the
`leaving` that follows fails on the count. -/
theorem acquire_release_round_trip (cstr : mid → String) (d : MutexDebugger)
    (hd : d.TablesOrdered) (t : Nat) (m : mid) (hm : m ≠ 0)
    (hok : (entering cstr d t m).outcome = .ok) :
    (0 ≤ d.held t m →
        (leaving (entering cstr d t m).state t m).outcome = .ok
          ∧ ∀ t2 j, (leaving (entering cstr d t m).state t m).state.held t2 j = d.held t2 j)
      ∧ (d.held t m < 0 →
          (leaving (entering cstr d t m).state t m).outcome = .unbalanced (d.held t m)) := by
  have ht := no_trap_of_ok cstr d t m hm hok
  have hi := isInt_held d hd t m
  unfold IsInt intMin intMax at hi
  have h1 : (entering cstr d t m).state.held t m = wrapInt (d.held t m + 1) := by
    rw [held_entering, if_pos ⟨hm, ht, rfl, rfl⟩]
    rfl
  have hdrop : (entering cstr d t m).state.dropped t m = d.held t m := by
    unfold MutexDebugger.dropped
    rw [h1]
    unfold wrapInt
    omega
  have htab := table_entering cstr d t m hm ht
  refine ⟨fun h0 => ⟨?_, ?_⟩, fun hneg => ?_⟩
  · rw [outcome_leaving _ t m hm, if_neg htab, hdrop, if_neg (not_lt.mpr h0)]
  · intro t2 j
    rw [held_leaving]
    by_cases h : t2 = t ∧ j = m
    · obtain ⟨h2, h3⟩ := h
      subst h2 h3
      rw [if_pos ⟨hm, htab, rfl, rfl⟩, hdrop]
    · rw [if_neg (fun hh => h ⟨hh.2.2.1, hh.2.2.2⟩), held_entering,
        if_neg (fun hh => h ⟨hh.2.2.1, hh.2.2.2⟩)]
  · rw [outcome_leaving _ t m hm, if_neg htab, hdrop, if_pos hneg]

/-- Witness of `acquire_release_round_trip`: thread `1` holds `A` once and enters and
leaves `B`. -/
theorem acquire_release_round_trip_witness :
    (enteredOnce.TablesOrdered ∧ (20 : mid) ≠ 0
        ∧ (entering sampleMem enteredOnce 1 20).outcome = .ok ∧ 0 ≤ enteredOnce.held 1 20)
      ∧ (leaving (entering sampleMem enteredOnce 1 20).state 1 20).outcome = .ok
      ∧ ∀ t2 j, (leaving (entering sampleMem enteredOnce 1 20).state 1 20).state.held t2 j
          = enteredOnce.held t2 j :=
  ⟨⟨tablesOrdered_run sampleMem fresh (tablesOrdered_init "" "" 999) _, by decide, by decide,
      by decide⟩,
    (acquire_release_round_trip sampleMem enteredOnce
      (tablesOrdered_run sampleMem fresh (tablesOrdered_init "" "" 999) _) 1 20
      (by decide) (by decide)).1 (by decide)⟩

/-- C7 (the claim fails in two ways).  First, thread `1` holds `A` and `B` and the watched
pair is `A`, `B`: the re-entrant `entering` of `A` fails at the watched pair and the count
of `A` is not incremented.  Second, thread `1` locks `A`, then `B`, then `A` again until it
holds `A` `INT_MAX` times, every call returning normally: the next `entering` of `A` wraps
the count to `INT_MIN`, takes the path of a first acquisition, inserts the edge `B → A`
and fails with the order violation that names `B`. -/
theorem reentry_stopped_or_wrapped :
    (0 < holdsAB.held 1 10
        ∧ (entering sampleMem holdsAB 1 10).outcome = Outcome.watchedPair
        ∧ (entering sampleMem holdsAB 1 10).state.held 1 10 = holdsAB.held 1 10)
      ∧ (∀ o ∈ outcomes sampleMem fresh [Call.acquire 1 10, Call.acquire 1 20],
          o = Outcome.ok)
      ∧ (∀ o ∈ outcomes sampleMem nestedAB (List.replicate 2147483646 (Call.acquire 1 10)),
          o = Outcome.ok)
      ∧ deepNested.held 1 10 = 2147483647
      ∧ (entering sampleMem deepNested 1 10).outcome = Outcome.orderViolation 20
      ∧ (entering sampleMem deepNested 1 10).state.held 1 10 = -2147483648
      ∧ ¬ deepNested.edge 20 10
      ∧ (entering sampleMem deepNested 1 10).state.edge 20 10 := by
  obtain ⟨r1, r2, _, r4, _⟩ := deepNested_reached
  obtain ⟨_, e2, e3, e4, e5⟩ := deepNested_entering
  exact ⟨by decide, r1, r2, r4, e2, e3, e4, e5⟩

/-- C7 (amended): when the caller already holds the non-null identity `m`, fewer than
`INT_MAX` times, `entering` never reports an order violation and leaves `followers`
unchanged; unless the watched pair stops the call it returns normally and raises the hold
count of `m` by one, and when the watched pair stops it the hold count is unchanged. -/
theorem recursive_acquire (cstr : mid → String) (d : MutexDebugger) (t : Nat) (m : mid)
    (hm : m ≠ 0) (hc : 0 < d.held t m) (hlt : d.held t m < intMax) :
    (∀ bad, (entering cstr d t m).outcome ≠ .orderViolation bad)
      ∧ (entering cstr d t m).state.followers = d.followers
      ∧ (¬ trapFires cstr d t m →
          (entering cstr d t m).outcome = .ok
            ∧ (entering cstr d t m).state.held t m = d.held t m + 1)
      ∧ (trapFires cstr d t m →
          (entering cstr d t m).outcome = .watchedPair
            ∧ (entering cstr d t m).state.held t m = d.held t m) := by
  have hb : d.bumped t m = d.held t m + 1 := bumped_of_lt d t m (le_of_lt hc) hlt
  have hrec : 1 < d.bumped t m := by rw [hb]; omega
  refine ⟨?_, followers_entering_recursive cstr d t m hrec, ?_, ?_⟩
  · intro bad
    by_cases ht : trapFires cstr d t m
    · rw [entering_trap cstr d t m hm ht]; simp
    · rw [entering_recursive cstr d t m hm ht hrec]; simp
  · intro ht
    refine ⟨by rw [entering_recursive cstr d t m hm ht hrec], ?_⟩
    rw [held_entering, if_pos ⟨hm, ht, rfl, rfl⟩, hb]
  · intro ht
    refine ⟨(outcome_entering_trap cstr d t m).mpr ⟨hm, ht⟩, ?_⟩
    rw [held_entering, if_neg (fun hh => hh.2.1 ht)]

/-- Witness of `recursive_acquire`: thread `1` enters `A` a second time. -/
theorem recursive_acquire_witness :
    ((10 : mid) ≠ 0 ∧ 0 < enteredOnce.held 1 10 ∧ enteredOnce.held 1 10 < intMax)
      ∧ (∀ bad, (entering sampleMem enteredOnce 1 10).outcome ≠ .orderViolation bad)
      ∧ (entering sampleMem enteredOnce 1 10).state.followers = enteredOnce.followers
      ∧ (¬ trapFires sampleMem enteredOnce 1 10 →
          (entering sampleMem enteredOnce 1 10).outcome = .ok
            ∧ (entering sampleMem enteredOnce 1 10).state.held 1 10
                = enteredOnce.held 1 10 + 1)
      ∧ (trapFires sampleMem enteredOnce 1 10 →
          (entering sampleMem enteredOnce 1 10).outcome = .watchedPair
            ∧ (entering sampleMem enteredOnce 1 10).state.held 1 10
                = enteredOnce.held 1 10) :=
  ⟨⟨by decide, by decide, by decide⟩,
    recursive_acquire sampleMem enteredOnce 1 10 (by decide) (by decide) (by decide)⟩

/-- C8 (the claim fails at depth one): after a single `entering` of `A`, which returns
normally, thread `1` has reached the hold count `1` while `maxNest` has no entry for `A`,
so reads `0`. -/
theorem maxNest_misses_depth_one :
    outcomes sampleMem fresh [.acquire 1 10] = [Outcome.ok]
      ∧ (run sampleMem fresh [.acquire 1 10]).held 1 10 = 1
      ∧ (run sampleMem fresh [.acquire 1 10]).maxNest = []
      ∧ ¬ (1 ≤ index 0 (run sampleMem fresh [.acquire 1 10]).maxNest 10) := by
  decide

/-- C8 (amended): on a freshly constructed object, along any sequence of calls that all
return normally, the final entry of `maxNest` for an identity bounds every hold count above
`1` that any thread reached for it.  After any sequence of calls the entry is `0` (absent),
or it is at least `2` and is a hold count that some thread reached; and the entry never
decreases, along the sequence or in any single call.  In particular, after a thread enters
a non-null identity `n` times in a row, `2 ≤ n ≤ INT_MAX`, all calls returning normally,
the entry is at least `n`. -/
theorem maxNest_high_water (cstr : mid → String) (a b : String) (bp : mid) (cs : List Call)
    (j : mid) :
    ((∀ o ∈ outcomes cstr (MutexDebugger.init a b bp) cs, o = .ok) →
        ∀ s ∈ trace cstr (MutexDebugger.init a b bp) cs, ∀ t,
          s.held t j ≤ max 1 (index 0 (run cstr (MutexDebugger.init a b bp) cs).maxNest j))
      ∧ (index 0 (run cstr (MutexDebugger.init a b bp) cs).maxNest j = 0
          ∨ (2 ≤ index 0 (run cstr (MutexDebugger.init a b bp) cs).maxNest j
              ∧ ∃ s ∈ trace cstr (MutexDebugger.init a b bp) cs, ∃ t,
                  s.held t j = index 0 (run cstr (MutexDebugger.init a b bp) cs).maxNest j))
      ∧ (∀ s ∈ trace cstr (MutexDebugger.init a b bp) cs,
          index 0 s.maxNest j ≤ index 0 (run cstr (MutexDebugger.init a b bp) cs).maxNest j)
      ∧ (∀ (d : MutexDebugger) (c : Call),
          index 0 d.maxNest j ≤ index 0 (step cstr d c).state.maxNest j)
      ∧ index 0 (run cstr (MutexDebugger.init a b bp) cs).maxNest j ≤ intMax
      ∧ ∀ (t n : Nat), j ≠ 0 → 2 ≤ n → (n : Int) ≤ intMax →
          (∀ o ∈ outcomes cstr (MutexDebugger.init a b bp) (List.replicate n (.acquire t j)),
            o = .ok) →
          (n : Int) ≤ index 0
            (run cstr (MutexDebugger.init a b bp) (List.replicate n (.acquire t j))).maxNest j := by
  have h0 : HighWater j (MutexDebugger.init a b bp) := by
    intro t
    rw [held_init]
    exact ⟨le_trans (by decide) (le_max_left _ _), fun h => absurd h (by decide)⟩
  obtain ⟨h1, h3⟩ := maxNest_trace cstr j cs (MutexDebugger.init a b bp)
  refine ⟨fun hok => held_le_maxNest_trace cstr j cs _ (tablesOrdered_init a b bp) h0 hok,
    ?_, h1, fun d c => maxNest_step_le cstr d c j, ?_, ?_⟩
  · rcases h3 with h3 | h3
    · left
      rw [h3]
      rfl
    · exact Or.inr h3
  · rcases h3 with h3 | ⟨_, s, hs, t, h4⟩
    · rw [h3]
      exact (by decide : (0 : Int) ≤ intMax)
    · rw [← h4]
      exact (isInt_held s
        (tablesOrdered_trace cstr cs _ (tablesOrdered_init a b bp) s hs) t j).2
  · intro t n hj hn hmax hok
    have hheld := held_replicate_ok cstr t j hj n (MutexDebugger.init a b bp)
      (by rw [held_init]) (by rw [held_init]; omega) hok
    have hle := held_le_maxNest_trace cstr j (List.replicate n (.acquire t j)) _
      (tablesOrdered_init a b bp) h0 hok _ (run_mem_trace cstr _ _) t
    rw [hheld, held_init] at hle
    have hn2 : (2 : Int) ≤ (n : Int) := by exact_mod_cast hn
    omega

/-- Witness of `maxNest_high_water`: thread `1` enters `A` three times and leaves it once;
every call returns normally, and no hold count exceeds the final entry `3` of `maxNest`. -/
theorem maxNest_high_water_witness :
    (∀ o ∈ outcomes sampleMem (MutexDebugger.init "" "" 999)
        [.acquire 1 10, .acquire 1 10, .acquire 1 10, .release 1 10], o = Outcome.ok)
      ∧ index 0 (run sampleMem (MutexDebugger.init "" "" 999)
          [.acquire 1 10, .acquire 1 10, .acquire 1 10, .release 1 10]).maxNest 10 = 3
      ∧ ∀ s ∈ trace sampleMem (MutexDebugger.init "" "" 999)
          [.acquire 1 10, .acquire 1 10, .acquire 1 10, .release 1 10], ∀ t,
          s.held t 10 ≤ max 1 (index 0 (run sampleMem (MutexDebugger.init "" "" 999)
            [.acquire 1 10, .acquire 1 10, .acquire 1 10, .release 1 10]).maxNest 10) :=
  ⟨by decide, by decide,
    (maxNest_high_water sampleMem "" "" 999
      [.acquire 1 10, .acquire 1 10, .acquire 1 10, .release 1 10] 10).1 (by decide)⟩

/-- C9: no call, whether it returns normally or fails, removes an edge of `followers`, and
`leaving` leaves `followers` and `maxNest` as they were. -/
theorem edges_never_removed (cstr : mid → String) (d : MutexDebugger) (c : Call) :
    (∀ x y, d.edge x y → (step cstr d c).state.edge x y)
      ∧ ∀ t m, (leaving d t m).state.followers = d.followers
          ∧ (leaving d t m).state.maxNest = d.maxNest := by
  refine ⟨?_, fun t m => ⟨(leaving_frame d t m).1, (leaving_frame d t m).2.1⟩⟩
  intro x y h
  cases c with
  | acquire t m => exact edge_entering cstr d t m x y h
  | release t m =>
    show hasEdge (leaving d t m).state.followers x y
    rw [(leaving_frame d t m).1]
    exact h

/-- Witness of `edges_never_removed`: the edge `A → B` survives the failing `entering` of
`A` by thread `2`. -/
theorem edges_never_removed_witness :
    reversedNesting.edge 10 20
      ∧ (step sampleMem reversedNesting (.acquire 2 10)).outcome = .orderViolation 20
      ∧ (step sampleMem reversedNesting (.acquire 2 10)).state.edge 10 20 :=
  ⟨by decide, by decide,
    (edges_never_removed sampleMem reversedNesting (.acquire 2 10)).1 10 20 (by decide)⟩

/-- C10: `entering` and `leaving` called with the null identity return normally and leave
the whole object unchanged. -/
theorem null_identity_noop (cstr : mid → String) (d : MutexDebugger) (t : Nat) :
    entering cstr d t 0 = ⟨.ok, d⟩ ∧ leaving d t 0 = ⟨.ok, d⟩ :=
  ⟨entering_null cstr d t, leaving_null d t⟩

/-- C11 (the claim fails once a count has wrapped): thread `1` enters `A` `2^31` times in a
row on a fresh object.  Every call returns normally, and the count of `A`, an `int`
incremented `2^31` times, is `INT_MIN`. -/
theorem hold_count_wraps_negative :
    (∀ o ∈ outcomes sampleMem fresh (List.replicate 2147483648 (Call.acquire 1 10)),
        o = Outcome.ok)
      ∧ (run sampleMem fresh (List.replicate 2147483648 (Call.acquire 1 10))).held 1 10
          = -2147483648
      ∧ ¬ (0 ≤ (run sampleMem fresh
            (List.replicate 2147483648 (Call.acquire 1 10))).held 1 10) := by
  obtain ⟨h1, _, h2, _⟩ := wrappedNest_reached
  have h3 : (run sampleMem fresh (List.replicate 2147483648 (Call.acquire 1 10))).held 1 10
      = -2147483648 := h2
  refine ⟨h1, h3, ?_⟩
  rw [h3]
  decide

/-- C11 (amended): after a sequence of calls on a freshly constructed object all of which
returned normally, and in which `entering` was never called for an identity that the caller
held `INT_MAX` times, every entry of the table of every thread is non-negative, and so is
every hold count read from it. -/
theorem hold_counts_nonneg (cstr : mid → String) (a b : String) (bp : mid) (cs : List Call)
    (hok : ∀ o ∈ outcomes cstr (MutexDebugger.init a b bp) cs, o = .ok)
    (hlt : neverAtIntMax cstr (MutexDebugger.init a b bp) cs = true) :
    (∀ e ∈ (run cstr (MutexDebugger.init a b bp) cs).us, ∀ x ∈ e.2, 0 ≤ x.2)
      ∧ ∀ t m, 0 ≤ (run cstr (MutexDebugger.init a b bp) cs).held t m := by
  have h0 : (MutexDebugger.init a b bp).EntriesNonneg := by
    intro e he
    simp [MutexDebugger.init] at he
  have h := entriesNonneg_run cstr cs _ h0 hok hlt
  exact ⟨h, held_nonneg_of_entries _ h⟩

/-- Witness of `hold_counts_nonneg`: thread `1` nests `A`, `A`, `B` and releases all. -/
theorem hold_counts_nonneg_witness :
    ((∀ o ∈ outcomes sampleMem (MutexDebugger.init "" "" 999)
        [.acquire 1 10, .acquire 1 10, .acquire 1 20, .release 1 20, .release 1 10,
          .release 1 10], o = Outcome.ok)
      ∧ neverAtIntMax sampleMem (MutexDebugger.init "" "" 999)
        [.acquire 1 10, .acquire 1 10, .acquire 1 20, .release 1 20, .release 1 10,
          .release 1 10] = true)
      ∧ (∀ e ∈ (run sampleMem (MutexDebugger.init "" "" 999)
          [.acquire 1 10, .acquire 1 10, .acquire 1 20, .release 1 20, .release 1 10,
            .release 1 10]).us, ∀ x ∈ e.2, 0 ≤ x.2)
      ∧ ∀ t m, 0 ≤ (run sampleMem (MutexDebugger.init "" "" 999)
          [.acquire 1 10, .acquire 1 10, .acquire 1 20, .release 1 20, .release 1 10,
            .release 1 10]).held t m :=
  ⟨⟨by decide, by decide⟩, hold_counts_nonneg sampleMem "" "" 999 _ (by decide) (by decide)⟩

/-- C12 (the claim fails in two ways).  First, thread `1` holds `A` and `B`, `a` and `b`
are the names of `A` and `B`: the re-entrant `entering` of `A` raises the watched-pair
violation.  Second, thread `1` holds `B` once and `A` `INT_MAX` times, reached by calls
that all return normally, and there is no watched pair: the re-entrant `entering` of `A`
does not return normally, it fails with an order violation. -/
theorem reentrant_call_not_exempt :
    (0 < holdsAB.held 1 10 ∧ holdsAB.a = sampleMem 10 ∧ holdsAB.b = sampleMem 20
        ∧ 0 < holdsAB.held 1 20
        ∧ (entering sampleMem holdsAB 1 10).outcome = Outcome.watchedPair)
      ∧ (∀ o ∈ outcomes sampleMem fresh [Call.acquire 1 10, Call.acquire 1 20],
          o = Outcome.ok)
      ∧ (∀ o ∈ outcomes sampleMem nestedAB (List.replicate 2147483646 (Call.acquire 1 10)),
          o = Outcome.ok)
      ∧ 0 < deepNested.held 1 10
      ∧ ¬ trapFires sampleMem deepNested 1 10
      ∧ (entering sampleMem deepNested 1 10).outcome ≠ Outcome.ok := by
  obtain ⟨r1, r2, _, r4, _⟩ := deepNested_reached
  obtain ⟨e1, e2, _⟩ := deepNested_entering
  refine ⟨by decide, r1, r2, ?_, e1, ?_⟩
  · rw [r4]
    decide
  · rw [e2]
    simp

/-- C12 (amended): the watched pair is tested on every call of `entering`, before the test
for re-entrancy.  When the caller already holds the non-null identity `m`, fewer than
`INT_MAX` times, the call fails at the watched pair exactly when that test fires, and
returns normally exactly when it does not. -/
theorem watched_pair_on_reentry (cstr : mid → String) (d : MutexDebugger) (t : Nat) (m : mid)
    (hm : m ≠ 0) (hc : 0 < d.held t m) (hlt : d.held t m < intMax) :
    ((entering cstr d t m).outcome = .watchedPair ↔ trapFires cstr d t m)
      ∧ ((entering cstr d t m).outcome = .ok ↔ ¬ trapFires cstr d t m) := by
  have h1 := outcome_entering_trap cstr d t m
  have hrec : 1 < d.bumped t m := by
    rw [bumped_of_lt d t m (le_of_lt hc) hlt]
    omega
  refine ⟨?_, ?_⟩
  · rw [h1]
    exact ⟨fun h => h.2, fun h => ⟨hm, h⟩⟩
  · constructor
    · intro hok
      exact no_trap_of_ok cstr d t m hm hok
    · intro hn
      rw [entering_recursive cstr d t m hm hn hrec]

/-- Witness of `watched_pair_on_reentry`: thread `1` holds `A` and `B`, the watched pair,
and enters `A` again. -/
theorem watched_pair_on_reentry_witness :
    ((10 : mid) ≠ 0 ∧ 0 < holdsAB.held 1 10 ∧ holdsAB.held 1 10 < intMax)
      ∧ trapFires sampleMem holdsAB 1 10
      ∧ ((entering sampleMem holdsAB 1 10).outcome = .watchedPair
          ↔ trapFires sampleMem holdsAB 1 10)
      ∧ ((entering sampleMem holdsAB 1 10).outcome = .ok
          ↔ ¬ trapFires sampleMem holdsAB 1 10) :=
  ⟨⟨by decide, by decide, by decide⟩, by decide,
    watched_pair_on_reentry sampleMem holdsAB 1 10 (by decide) (by decide) (by decide)⟩

/-- C13: for an object with well-formed tables, the text returned by `currentlyLocked` is
made of one line per entry of `lockedEntries`, in table order; these entries are exactly
the pairs of an identity with a positive hold count of the calling thread and that count,
no identity occurs twice, and the text is empty when the thread has no table or holds
nothing. -/
theorem currentlyLocked_lists_held (cstr : mid → String) (d : MutexDebugger) (t : Nat)
    (hd : d.TablesOrdered) :
    currentlyLocked cstr d t
        = (lockedEntries d t).foldl (fun acc e => acc ++ lockedLine cstr e.1 e.2) ""
      ∧ (∀ k c, (k, c) ∈ lockedEntries d t ↔ 0 < c ∧ d.held t k = c)
      ∧ ((lockedEntries d t).map Prod.fst).Nodup
      ∧ (find? d.us t = none → currentlyLocked cstr d t = "")
      ∧ ((∀ k, d.held t k ≤ 0) → currentlyLocked cstr d t = "") := by
  have hmem := mem_lockedEntries d hd t
  have heq : currentlyLocked cstr d t
      = (lockedEntries d t).foldl (fun acc e => acc ++ lockedLine cstr e.1 e.2) "" := by
    unfold currentlyLocked lockedEntries MutexDebugger.table
    cases hu : find? d.us t with
    | none => rfl
    | some p => exact lockedLoop_eq cstr p ""
  refine ⟨heq, hmem, nodup_lockedEntries d hd t, ?_, ?_⟩
  · intro hu
    unfold currentlyLocked
    rw [hu]
  · intro hall
    have hnil : lockedEntries d t = [] := by
      apply List.eq_nil_iff_forall_not_mem.mpr
      rintro ⟨k, c⟩ hkc
      have h1 := (hmem k c).mp hkc
      have h2 := hall k
      omega
    rw [heq, hnil]
    rfl

/-- Witness of `currentlyLocked_lists_held`: thread `1` holds `A` and has released `B`. -/
theorem currentlyLocked_lists_held_witness :
    (run sampleMem fresh [.acquire 1 10, .acquire 1 20, .release 1 20]).TablesOrdered
      ∧ lockedEntries (run sampleMem fresh [.acquire 1 10, .acquire 1 20, .release 1 20]) 1
          = [(10, 1)]
      ∧ currentlyLocked sampleMem
            (run sampleMem fresh [.acquire 1 10, .acquire 1 20, .release 1 20]) 1
          = "  A 1\n"
      ∧ currentlyLocked sampleMem
            (run sampleMem fresh [.acquire 1 10, .acquire 1 20, .release 1 20]) 1
          = (lockedEntries (run sampleMem fresh [.acquire 1 10, .acquire 1 20, .release 1 20])
              1).foldl (fun acc e => acc ++ lockedLine sampleMem e.1 e.2) "" :=
  ⟨tablesOrdered_run sampleMem fresh (tablesOrdered_init "" "" 999) _, by decide, by decide,
    (currentlyLocked_lists_held sampleMem
      (run sampleMem fresh [.acquire 1 10, .acquire 1 20, .release 1 20]) 1
      (tablesOrdered_run sampleMem fresh (tablesOrdered_init "" "" 999) _)).1⟩

/-- C15: for an object with well-formed tables, when the caller does not hold the
non-null identity `m` and the watched pair does not stop the call, `entering` fails with
an order violation exactly when some other identity held by the caller is already a
follower of `m`; the identity it names is such a one, and otherwise it returns normally. -/
theorem violation_condition (cstr : mid → String) (d : MutexDebugger) (t : Nat) (m : mid)
    (hd : d.TablesOrdered) (hm : m ≠ 0) (hc : d.held t m ≤ 0)
    (ht : ¬ trapFires cstr d t m) :
    ((∃ bad, (entering cstr d t m).outcome = .orderViolation bad)
        ↔ ∃ j, j ≠ m ∧ 0 < d.held t j ∧ d.edge m j)
      ∧ (∀ bad, (entering cstr d t m).outcome = .orderViolation bad →
          bad ≠ m ∧ 0 < d.held t bad ∧ d.edge m bad)
      ∧ ((entering cstr d t m).outcome = .ok
        ↔ ¬ ∃ j, j ≠ m ∧ 0 < d.held t j ∧ d.edge m j) := by
  have hb := bumped_le_one d hd t m hc
  have hheld := order_violation_held cstr d hd t m hm ht hb
  have hcase := outcome_entering_first cstr d t m hm ht hb
  refine ⟨⟨?_, ?_⟩, hheld, ⟨?_, ?_⟩⟩
  · rintro ⟨bad, h⟩
    exact ⟨bad, hheld bad h⟩
  · rintro ⟨j, h1, h2, h3⟩
    rcases hcase with ⟨_, h⟩ | ⟨bad, h, _⟩
    · exact absurd h3 (h j h1 h2).1
    · exact ⟨bad, h⟩
  · rintro hok ⟨j, h1, h2, h3⟩
    rcases hcase with ⟨_, h⟩ | ⟨bad, h, _⟩
    · exact absurd h3 (h j h1 h2).1
    · rw [hok] at h; cases h
  · intro hn
    rcases hcase with ⟨h, _⟩ | ⟨bad, h, _⟩
    · exact h
    · exact absurd ⟨bad, hheld bad h⟩ hn

/-- Witness of `violation_condition`: thread `2` holds `B` and enters `A` after thread `1`
nested `A` then `B`. -/
theorem violation_condition_witness :
    (reversedNesting.TablesOrdered ∧ (10 : mid) ≠ 0 ∧ reversedNesting.held 2 10 ≤ 0
        ∧ ¬ trapFires sampleMem reversedNesting 2 10)
      ∧ ((∃ bad, (entering sampleMem reversedNesting 2 10).outcome = .orderViolation bad)
          ↔ ∃ j, j ≠ 10 ∧ 0 < reversedNesting.held 2 j ∧ reversedNesting.edge 10 j)
      ∧ (∀ bad, (entering sampleMem reversedNesting 2 10).outcome = .orderViolation bad →
          bad ≠ 10 ∧ 0 < reversedNesting.held 2 bad ∧ reversedNesting.edge 10 bad)
      ∧ ((entering sampleMem reversedNesting 2 10).outcome = .ok
          ↔ ¬ ∃ j, j ≠ 10 ∧ 0 < reversedNesting.held 2 j ∧ reversedNesting.edge 10 j) :=
  ⟨⟨tablesOrdered_run sampleMem fresh (tablesOrdered_init "" "" 999) _, by decide, by decide,
      by decide⟩,
    violation_condition sampleMem reversedNesting 2 10
      (tablesOrdered_run sampleMem fresh (tablesOrdered_init "" "" 999) _)
      (by decide) (by decide) (by decide)⟩

/-- C16: for an object with well-formed tables, when `entering` of a non-null identity `m`
not held by the caller returns normally, the edges afterwards are the edges before together
with `j → m` for every other identity `j` held by the caller, and no others; and no call of
`entering`, whatever its outcome, adds an edge from an identity to itself. -/
theorem edges_of_first_acquisition (cstr : mid → String) (d : MutexDebugger) (t : Nat)
    (m : mid) (hd : d.TablesOrdered) (hm : m ≠ 0) (hc : d.held t m ≤ 0)
    (hok : (entering cstr d t m).outcome = .ok) :
    (∀ x y, (entering cstr d t m).state.edge x y
        ↔ d.edge x y ∨ (y = m ∧ x ≠ m ∧ 0 < d.held t x))
      ∧ ∀ (d2 : MutexDebugger) (t2 : Nat) (m2 x : mid),
          (entering cstr d2 t2 m2).state.edge x x → d2.edge x x :=
  ⟨edge_entering_first_ok cstr d hd t m hm (bumped_le_one d hd t m hc) hok,
    fun d2 t2 m2 x => self_edge_entering cstr d2 t2 m2 x⟩

/-- Witness of `edges_of_first_acquisition`: thread `1` holds `A` and enters `B`. -/
theorem edges_of_first_acquisition_witness :
    (enteredOnce.TablesOrdered ∧ (20 : mid) ≠ 0 ∧ enteredOnce.held 1 20 ≤ 0
        ∧ (entering sampleMem enteredOnce 1 20).outcome = .ok)
      ∧ (entering sampleMem enteredOnce 1 20).state.followers = [(10, [20]), (20, [])]
      ∧ (∀ x y, (entering sampleMem enteredOnce 1 20).state.edge x y
          ↔ enteredOnce.edge x y ∨ (y = 20 ∧ x ≠ 20 ∧ 0 < enteredOnce.held 1 x)) :=
  ⟨⟨tablesOrdered_run sampleMem fresh (tablesOrdered_init "" "" 999) _, by decide, by decide,
      by decide⟩,
    by decide,
    (edges_of_first_acquisition sampleMem enteredOnce 1 20
      (tablesOrdered_run sampleMem fresh (tablesOrdered_init "" "" 999) _)
      (by decide) (by decide) (by decide)).1⟩

/-- C18: after a sequence of calls on a freshly constructed object none of which failed
with an order violation, `followers` holds no edge from an identity to itself and no edge
together with its opposite. -/
theorem pairwise_consistent (cstr : mid → String) (a b : String) (bp : mid) (cs : List Call)
    (hno : ∀ o ∈ outcomes cstr (MutexDebugger.init a b bp) cs,
      ∀ bad, o ≠ .orderViolation bad) :
    (∀ x, ¬ (run cstr (MutexDebugger.init a b bp) cs).edge x x)
      ∧ ∀ x y, (run cstr (MutexDebugger.init a b bp) cs).edge x y →
          ¬ (run cstr (MutexDebugger.init a b bp) cs).edge y x := by
  have h0 : (MutexDebugger.init a b bp).Antisymmetric :=
    fun x y h => absurd h (edge_init a b bp x y)
  have h := antisymmetric_run cstr cs _ (tablesOrdered_init a b bp) h0 hno
  exact ⟨fun x hx => h x x hx hx, h⟩

/-- Witness of `pairwise_consistent`: the three threads that close the cycle
`A → B → C → A` without any call failing. -/
theorem pairwise_consistent_witness :
    (∀ o ∈ outcomes sampleMem (MutexDebugger.init "" "" 999) threeCycleCalls,
        ∀ bad, o ≠ .orderViolation bad)
      ∧ (∀ x, ¬ (run sampleMem (MutexDebugger.init "" "" 999) threeCycleCalls).edge x x)
      ∧ ∀ x y, (run sampleMem (MutexDebugger.init "" "" 999) threeCycleCalls).edge x y →
          ¬ (run sampleMem (MutexDebugger.init "" "" 999) threeCycleCalls).edge y x :=
  ⟨threeCycle_no_order_violation,
    pairwise_consistent sampleMem "" "" 999 threeCycleCalls threeCycle_no_order_violation⟩

/-- C19 (the claim fails when the count wraps): thread `1` holds `B` once and `A`
`INT_MAX` times, reached by calls that all return normally, and `A → B` is an edge.
`entering` of `A` fails with the order violation that names `B` and leaves the count of
`A` at `INT_MIN`, not at `1`. -/
theorem failed_acquisition_count_wrapped :
    (∀ o ∈ outcomes sampleMem fresh [Call.acquire 1 10, Call.acquire 1 20], o = Outcome.ok)
      ∧ (∀ o ∈ outcomes sampleMem nestedAB (List.replicate 2147483646 (Call.acquire 1 10)),
          o = Outcome.ok)
      ∧ (entering sampleMem deepNested 1 10).outcome = Outcome.orderViolation 20
      ∧ (entering sampleMem deepNested 1 10).state.held 1 10 = -2147483648
      ∧ ¬ ((entering sampleMem deepNested 1 10).state.held 1 10 = 1) := by
  obtain ⟨r1, r2, _⟩ := deepNested_reached
  obtain ⟨_, e2, e3, _⟩ := deepNested_entering
  refine ⟨r1, r2, e2, e3, ?_⟩
  rw [e3]
  decide

/-- C19 (amended): a call of `entering` that fails is not rolled back.  After an order
violation naming `bad`, the hold count of the caller for `m` is its former value plus one
in `int` arithmetic, so `1` when it was `0` (and, on well-formed tables, only then), and
`followers` holds both `bad → m` and `m → bad`.  After a failure at the watched pair
`followers` and every hold count, so every positive one, are what they were. -/
theorem failed_acquisition_state (cstr : mid → String) (d : MutexDebugger) (t : Nat)
    (m : mid) :
    (∀ bad, (entering cstr d t m).outcome = .orderViolation bad →
        (entering cstr d t m).state.held t m = wrapInt (d.held t m + 1)
          ∧ (d.held t m = 0 → (entering cstr d t m).state.held t m = 1)
          ∧ (d.TablesOrdered → ((entering cstr d t m).state.held t m = 1 ↔ d.held t m = 0))
          ∧ (entering cstr d t m).state.edge bad m
          ∧ (entering cstr d t m).state.edge m bad)
      ∧ ((entering cstr d t m).outcome = .watchedPair →
          (entering cstr d t m).state.followers = d.followers
            ∧ ∀ t2 j, (entering cstr d t m).state.held t2 j = d.held t2 j) := by
  constructor
  · intro bad hv
    obtain ⟨hm, ht, hc⟩ := order_violation_first cstr d t m bad hv
    have hh : (entering cstr d t m).state.held t m = wrapInt (d.held t m + 1) := by
      rw [held_entering, if_pos ⟨hm, ht, rfl, rfl⟩]
      rfl
    rcases outcome_entering_first cstr d t m hm ht hc with ⟨h, _⟩ | ⟨b2, h, _, h3, h4, _⟩
    · rw [h] at hv; cases hv
    · rw [h] at hv
      cases hv
      refine ⟨hh, fun h0 => by rw [hh, h0]; decide, ?_, h4, edge_entering cstr d t m m bad h3⟩
      intro hd
      have hi := isInt_held d hd t m
      unfold IsInt intMin intMax at hi
      rw [hh]
      unfold wrapInt
      constructor
      · intro h1
        omega
      · intro h1
        omega
  · intro hw
    obtain ⟨hm, ht⟩ := (outcome_entering_trap cstr d t m).mp hw
    refine ⟨by rw [entering_trap cstr d t m hm ht], ?_⟩
    intro t2 j
    rw [held_entering, if_neg (fun hh => hh.2.1 ht)]

/-- Witness of `failed_acquisition_state`: thread `2` holds `B` and enters `A` after
thread `1` nested `A` then `B`. -/
theorem failed_acquisition_state_witness :
    (entering sampleMem reversedNesting 2 10).outcome = .orderViolation 20
      ∧ ((entering sampleMem reversedNesting 2 10).state.held 2 10
              = wrapInt (reversedNesting.held 2 10 + 1)
          ∧ (reversedNesting.held 2 10 = 0 →
              (entering sampleMem reversedNesting 2 10).state.held 2 10 = 1)
          ∧ (reversedNesting.TablesOrdered →
              ((entering sampleMem reversedNesting 2 10).state.held 2 10 = 1
                ↔ reversedNesting.held 2 10 = 0))
          ∧ (entering sampleMem reversedNesting 2 10).state.edge 20 10
          ∧ (entering sampleMem reversedNesting 2 10).state.edge 10 20) :=
  ⟨by decide, (failed_acquisition_state sampleMem reversedNesting 2 10).1 20 (by decide)⟩

/-- C17: on an object with well-formed tables, when a call of `entering` by thread `t1`
followed by one by another thread `t2` both return normally, then so do the same two calls
made in the opposite order, and both orders end with the same edges, the same entries of
`maxNest` and the same hold counts.  Moreover a call of `entering` for which every edge
`j → m` from an identity held by the caller is recorded already leaves the edges as they
are. -/
theorem acquisitions_commute (cstr : mid → String) (d : MutexDebugger) (t1 t2 : Nat)
    (m1 m2 : mid) (hd : d.TablesOrdered) (ht : t1 ≠ t2)
    (h1 : (entering cstr d t1 m1).outcome = .ok)
    (h2 : (entering cstr (entering cstr d t1 m1).state t2 m2).outcome = .ok) :
    (entering cstr d t2 m2).outcome = .ok
      ∧ (entering cstr (entering cstr d t2 m2).state t1 m1).outcome = .ok
      ∧ (∀ x y, (entering cstr (entering cstr d t2 m2).state t1 m1).state.edge x y
          ↔ (entering cstr (entering cstr d t1 m1).state t2 m2).state.edge x y)
      ∧ (∀ j, index 0 (entering cstr (entering cstr d t2 m2).state t1 m1).state.maxNest j
          = index 0 (entering cstr (entering cstr d t1 m1).state t2 m2).state.maxNest j)
      ∧ (∀ t j, (entering cstr (entering cstr d t2 m2).state t1 m1).state.held t j
          = (entering cstr (entering cstr d t1 m1).state t2 m2).state.held t j)
      ∧ ∀ (d3 : MutexDebugger) (t3 : Nat) (m3 : mid), d3.TablesOrdered →
          (∀ j, j ≠ m3 → 0 < d3.held t3 j → d3.edge j m3) →
          ∀ x y, (entering cstr d3 t3 m3).state.edge x y ↔ d3.edge x y := by
  have ht21 : t2 ≠ t1 := fun h => ht h.symm
  obtain ⟨d1, hd1⟩ : ∃ d1, d1 = (entering cstr d t1 m1).state := ⟨_, rfl⟩
  obtain ⟨d2, hd2⟩ : ∃ d2, d2 = (entering cstr d t2 m2).state := ⟨_, rfl⟩
  rw [← hd1] at h2
  rw [← hd1, ← hd2]
  have o1 : d1.TablesOrdered := by rw [hd1]; exact tablesOrdered_entering cstr d hd t1 m1
  have o2 : d2.TablesOrdered := by rw [hd2]; exact tablesOrdered_entering cstr d hd t2 m2
  have k2 : ∀ j, d1.held t2 j = d.held t2 j := by
    intro j; rw [hd1]; exact held_entering_other cstr d t1 m1 t2 ht21 j
  have k1 : ∀ j, d2.held t1 j = d.held t1 j := by
    intro j; rw [hd2]; exact held_entering_other cstr d t2 m2 t1 ht j
  have kb2 : d1.bumped t2 m2 = d.bumped t2 m2 := by
    unfold MutexDebugger.bumped
    rw [k2]
  have kb1 : d2.bumped t1 m1 = d.bumped t1 m1 := by
    unfold MutexDebugger.bumped
    rw [k1]
  have tr2 : trapFires cstr d1 t2 m2 ↔ trapFires cstr d t2 m2 := by
    rw [hd1]; exact trapFires_entering_other cstr d t1 m1 t2 ht21 m2
  have tr1 : trapFires cstr d2 t1 m1 ↔ trapFires cstr d t1 m1 := by
    rw [hd2]; exact trapFires_entering_other cstr d t2 m2 t1 ht m1
  have E1 : ∀ x y, d1.edge x y
      ↔ d.edge x y ∨ (m1 ≠ 0 ∧ d.bumped t1 m1 ≤ 1 ∧ y = m1 ∧ x ≠ m1 ∧ 0 < d.held t1 x) := by
    intro x y; rw [hd1]; exact edge_entering_ok cstr d hd t1 m1 h1 x y
  -- the call of `t2` returns normally on the starting state
  have ok2 : (entering cstr d t2 m2).outcome = .ok := by
    rw [outcome_ok_iff cstr d hd]
    rcases (outcome_ok_iff cstr d1 o1 t2 m2).mp h2 with h | ⟨hn, h⟩
    · exact Or.inl h
    · right
      refine ⟨fun hh => hn (tr2.mpr hh), ?_⟩
      rcases h with h | h
      · left; rw [← kb2]; exact h
      · right
        intro j hj hjc hE
        exact h j hj (by rw [k2]; exact hjc) ((E1 m2 j).mpr (Or.inl hE))
  have E2 : ∀ x y, d2.edge x y
      ↔ d.edge x y ∨ (m2 ≠ 0 ∧ d.bumped t2 m2 ≤ 1 ∧ y = m2 ∧ x ≠ m2 ∧ 0 < d.held t2 x) := by
    intro x y; rw [hd2]; exact edge_entering_ok cstr d hd t2 m2 ok2 x y
  -- the call of `t1` returns normally after the call of `t2`
  have ok1 : (entering cstr d2 t1 m1).outcome = .ok := by
    rw [outcome_ok_iff cstr d2 o2]
    by_cases hm1 : m1 = 0
    · exact Or.inl hm1
    rcases (outcome_ok_iff cstr d hd t1 m1).mp h1 with h | ⟨hn, h⟩
    · exact Or.inl h
    · right
      refine ⟨fun hh => hn (tr1.mp hh), ?_⟩
      by_cases hc1 : 1 < d.bumped t1 m1
      · left; rw [kb1]; exact hc1
      · have hfree : ∀ j, j ≠ m1 → 0 < d.held t1 j → ¬ d.edge m1 j := h.resolve_left hc1
        right
        intro j hj hjc hE
        rw [k1] at hjc
        rcases (E2 m1 j).mp hE with h3 | ⟨hm2, hb2, hjm2, hne, hheld⟩
        · exact hfree j hj hjc h3
        · have e1 : d1.edge j m1 :=
            (E1 j m1).mpr (Or.inr ⟨hm1, not_lt.mp hc1, rfl, hj, hjc⟩)
          rw [hjm2] at e1
          rcases (outcome_ok_iff cstr d1 o1 t2 m2).mp h2 with h4 | ⟨_, h4⟩
          · exact hm2 h4
          · rcases h4 with h4 | h4
            · rw [kb2] at h4; omega
            · exact h4 m1 hne (by rw [k2]; exact hheld) e1
  have M1 : ∀ j, index 0 d1.maxNest j
      = if m1 ≠ 0 ∧ 1 < d.bumped t1 m1 ∧ j = m1
        then max (index 0 d.maxNest j) (d.bumped t1 m1) else index 0 d.maxNest j := by
    intro j; rw [hd1]; exact maxNest_entering_ok cstr d t1 m1 h1 j
  have M2 : ∀ j, index 0 d2.maxNest j
      = if m2 ≠ 0 ∧ 1 < d.bumped t2 m2 ∧ j = m2
        then max (index 0 d.maxNest j) (d.bumped t2 m2) else index 0 d.maxNest j := by
    intro j; rw [hd2]; exact maxNest_entering_ok cstr d t2 m2 ok2 j
  have H1 : ∀ t j, d1.held t j
      = if m1 ≠ 0 ∧ t = t1 ∧ j = m1 then d.bumped t1 m1 else d.held t j := by
    intro t j; rw [hd1]; exact held_entering_ok cstr d t1 m1 h1 t j
  have H2 : ∀ t j, d2.held t j
      = if m2 ≠ 0 ∧ t = t2 ∧ j = m2 then d.bumped t2 m2 else d.held t j := by
    intro t j; rw [hd2]; exact held_entering_ok cstr d t2 m2 ok2 t j
  have E12 := edge_entering_ok cstr d1 o1 t2 m2 h2
  have E21 := edge_entering_ok cstr d2 o2 t1 m1 ok1
  have M12 := maxNest_entering_ok cstr d1 t2 m2 h2
  have M21 := maxNest_entering_ok cstr d2 t1 m1 ok1
  have H12 := held_entering_ok cstr d1 t2 m2 h2
  have H21 := held_entering_ok cstr d2 t1 m1 ok1
  refine ⟨ok2, ok1, ?_, ?_, ?_, ?_⟩
  · intro x y
    rw [E21 x y, E12 x y, E1 x y, E2 x y, kb1, k1 x, kb2, k2 x]
    exact or_right_comm
  · intro j
    rw [M21 j, M12 j, kb1, kb2, M1 j, M2 j]
    exact max_update_comm _ _ _ _ _
  · intro t j
    rw [H21 t j, H12 t j, kb1, kb2, H1 t j, H2 t j]
    by_cases c1 : m1 ≠ 0 ∧ t = t1 ∧ j = m1
    · have c2 : ¬ (m2 ≠ 0 ∧ t = t2 ∧ j = m2) := fun hh => ht (c1.2.1.symm.trans hh.2.1)
      rw [if_pos c1, if_neg c2, if_pos c1]
    · rw [if_neg c1, if_neg c1]
  · intro d3 t3 m3 o3 hrec x y
    exact edge_entering_recorded cstr d3 o3 t3 m3 hrec x y

/-- Witness of `acquisitions_commute`: thread `1` holds `A` and enters `B` while thread `2`
enters `B` re-entrantly. -/
theorem acquisitions_commute_witness :
    ((run sampleMem fresh [.acquire 1 10, .acquire 2 20]).TablesOrdered ∧ (1 : Nat) ≠ 2
        ∧ (entering sampleMem (run sampleMem fresh [.acquire 1 10, .acquire 2 20]) 1 20).outcome
            = .ok
        ∧ (entering sampleMem
            (entering sampleMem (run sampleMem fresh [.acquire 1 10, .acquire 2 20]) 1 20).state
            2 20).outcome = .ok)
      ∧ (entering sampleMem (run sampleMem fresh [.acquire 1 10, .acquire 2 20]) 2 20).outcome
          = .ok
      ∧ (entering sampleMem
          (entering sampleMem (run sampleMem fresh [.acquire 1 10, .acquire 2 20]) 2 20).state
          1 20).outcome = .ok :=
  have h := acquisitions_commute sampleMem
    (run sampleMem fresh [.acquire 1 10, .acquire 2 20]) 1 2 20 20
    (tablesOrdered_run sampleMem fresh (tablesOrdered_init "" "" 999) _)
    (by decide) (by decide) (by decide)
  ⟨⟨tablesOrdered_run sampleMem fresh (tablesOrdered_init "" "" 999) _, by decide, by decide,
      by decide⟩, h.1, h.2.1⟩

/-- C14 (evaluation of the code where the claim fails): when thread `1` enters `A` a second
time, `entering` reads `maxNest[m]` and assigns it (source lines 96-97) and returns; both
accesses come before the block that takes the lock, so neither is guarded. -/
theorem maxNest_written_without_guard :
    0 < enteredOnce.held 1 10
      ∧ enteringAccesses sampleMem enteredOnce 1 10
          = [⟨SharedTable.maxNest, true, false⟩, ⟨SharedTable.maxNest, true, false⟩]
      ∧ (entering sampleMem enteredOnce 1 10).state.maxNest = [(10, 2)]
      ∧ ¬ (∀ x ∈ enteringAccesses sampleMem enteredOnce 1 10, x.guarded = true) := by
  decide

end mongo
